import Mathlib

/-!
Shallow embedding of the ingestion and retrieval core of the second_brain
repository (backend/app): the chunker (`app/ingest/chunking.py`), the chunk
store writer and ingestion passes (`app/tasks/worker.py`), the embedding
gateway (`app/services/embeddings.py` together with `_embed_or_none` in
`app/tasks/worker.py`) and the hybrid retrieval fusion engine
(`app/services/retrieval.py`).

Modelling conventions: Python strings are `List Char`, Python floats are `ℚ`
(exact arithmetic), SQL rows are structures, external effects (the embedding
provider, `ts_rank_cd`, the cosine-distance operator, `gen_random_uuid`,
`sha256`, `now()`) are parameters, and the chunker's unbounded `while` loop is
a fuelled function returning `Option`: `none` means the loop did not finish
within the given fuel, so a run whose result is `none` for every fuel does not
terminate.
-/

namespace SecondBrain

/-- Python `str.strip()` on the front: drop leading whitespace
(`chunking.py`, used by every `.strip()` call of the repository). -/
def stripLead (s : List Char) : List Char := s.dropWhile Char.isWhitespace

/-- Python `str.strip()` on the back: drop trailing whitespace. -/
def stripTail (s : List Char) : List Char :=
  (s.reverse.dropWhile Char.isWhitespace).reverse

/-- Python `str.strip()`: drop whitespace at both ends. -/
def pyStrip (s : List Char) : List Char := stripTail (stripLead s)

/-- Python `text.split("\n\n")`: scan left to right, cutting at each
non-overlapping occurrence of two consecutive newlines (`chunking.py` line 13). -/
def splitParasAux : List Char → List Char → List (List Char)
  | [], acc => [acc.reverse]
  | [c], acc => [(c :: acc).reverse]
  | c :: d :: rest, acc =>
    if c = '\n' ∧ d = '\n'
    then acc.reverse :: splitParasAux rest []
    else splitParasAux (d :: rest) (c :: acc)

def splitParas (s : List Char) : List (List Char) := splitParasAux s []

/-- Whether the text contains two consecutive newline characters (used to
reason about `splitParas`). -/
def hasDoubleNL : List Char → Bool
  | c :: d :: l => (c == '\n' && d == '\n') || hasDoubleNL (d :: l)
  | _ => false

/-- The paragraph list of `chunk_text`:
`[p.strip() for p in text.split("\n\n") if p.strip()]` (`chunking.py` line 13). -/
def parasOf (t : List Char) : List (List Char) :=
  ((splitParas t).map pyStrip).filter (fun p => !p.isEmpty)

/-- The `flush` helper of `chunk_text` (`chunking.py` lines 17-20):
strip the buffer and append it when non-empty. -/
def flushChunk (acc : List (List Char)) (b : List Char) : List (List Char) :=
  if (pyStrip b).isEmpty then acc else acc ++ [pyStrip b]

/-- The paragraph-packing loop of `chunk_text` (`chunking.py` lines 22-28),
with the trailing `flush(buf)` folded into the base case. -/
def packLoop (mc : Nat) : List (List Char) → List Char → List (List Char) → List (List Char)
  | [], buf, acc => flushChunk acc buf
  | p :: ps, buf, acc =>
    if buf.length + p.length + 2 ≤ mc
    then packLoop mc ps (pyStrip (buf ++ '\n' :: '\n' :: p)) acc
    else packLoop mc ps p (flushChunk acc buf)

/-- The re-split `while` loop of `chunk_text` (`chunking.py` lines 36-40),
fuelled. One iteration at window start `i` appends `c[i:j].strip()` for
`j = min(len(c), i + max_chars)` and continues at `max(0, j - overlap)`
(natural subtraction). `none` means the fuel ran out. -/
def resplit (mc ov : Nat) : Nat → Nat → List Char → Option (List (List Char))
  | 0, _, _ => none
  | fuel + 1, i, c =>
    if i < c.length then
      match resplit mc ov fuel (min c.length (i + mc) - ov) c with
      | none => none
      | some rest => some (pyStrip ((c.drop i).take (min c.length (i + mc) - i)) :: rest)
    else some []

/-- The max-size enforcement pass of `chunk_text` (`chunking.py` lines 30-40):
chunks within the limit are kept, oversized chunks are re-split. -/
def enforce (mc ov fuel : Nat) : List (List Char) → Option (List (List Char))
  | [] => some []
  | c :: cs =>
    if c.length ≤ mc then (enforce mc ov fuel cs).map (fun rest => c :: rest)
    else
      match resplit mc ov fuel 0 c with
      | none => none
      | some pieces => (enforce mc ov fuel cs).map (fun rest => pieces ++ rest)

/-- `chunk_text(text, max_chars, overlap)` (`chunking.py`), fuelled through the
re-split loop. -/
def chunkText (fuel : Nat) (text : List Char) (mc ov : Nat) : Option (List (List Char)) :=
  if (pyStrip text).isEmpty then some []
  else
    match enforce mc ov fuel (packLoop mc (parasOf (pyStrip text)) [] []) with
    | none => none
    | some final => some ((final.map pyStrip).filter (fun x => !x.isEmpty))

/-- Item attributes projected by the `JOIN knowledge_items ki` of the three
retrieval queries (`retrieval.py` lines 85-137): title, source locator, source
kind and the item's optional source time. -/
structure ItemAttrs where
  title : List Char
  sourceUri : List Char
  sourceType : List Char
  sourceTime : Option ℚ
deriving DecidableEq

/-- One row of the `chunks` table joined with its item's attributes, as
selected by the retrieval queries and written by the chunk store writers
(`worker.py`). `embedding` is nullable; `chunkHash` abstracts the sha256
digest; `createdAt` abstracts `_now_utc()`. -/
structure ChunkRow where
  chunkId : Nat
  userId : Nat
  itemId : Nat
  chunkIndex : Nat
  text : List Char
  embedding : Option (List ℚ)
  chunkHash : Nat
  pointerType : List Char
  pointerStart : List Char
  pointerEnd : List Char
  chunkTimeStart : Option ℚ
  chunkTimeEnd : Option ℚ
  createdAt : ℚ
  item : ItemAttrs
deriving DecidableEq

/-- One evidence entry returned by `hybrid_retrieve`
(`retrieval.py` lines 170-176). -/
structure Evidence where
  chunkId : Nat
  itemId : Nat
  text : List Char
  citation : List Char
  score : ℚ
deriving DecidableEq

/-- A fused candidate: `(score, row)` of the `scored` list
(`retrieval.py` lines 153-157). -/
structure Scored where
  score : ℚ
  row : ChunkRow
deriving DecidableEq

/-- `_format_citation(r)` (`retrieval.py` lines 14-31); `r.get("title") or
"Untitled"` is empty-string defaulting. -/
def pyOr (s d : List Char) : List Char := if s.isEmpty then d else s

def formatCitation (r : ChunkRow) : List Char :=
  let title := pyOr r.item.title "Untitled".toList
  let src := r.item.sourceUri
  let ps := r.pointerStart
  let pe := r.pointerEnd
  if r.pointerType = "AUDIO_MS".toList then
    title ++ " (".toList ++ src ++ ") [audio ".toList ++ ps ++ "-".toList ++ pe ++ "ms]".toList
  else if r.pointerType = "PDF_PAGE".toList then
    title ++ " (".toList ++ src ++ ") [pages ".toList ++ ps ++ "-".toList ++ pe ++ "]".toList
  else if r.pointerType = "URL".toList then
    title ++ " (".toList ++ src ++ ")".toList
  else if r.pointerType = "NOTE_RANGE".toList then
    title ++ " [note]".toList
  else if r.pointerType = "IMAGE_REF".toList then
    title ++ " [image]".toList
  else
    title ++ " (".toList ++ src ++ ")".toList

/-- The evidence entry built from a row and its fused score
(`retrieval.py` lines 170-176). -/
def evOf (r : ChunkRow) (q : ℚ) : Evidence :=
  ⟨r.chunkId, r.itemId, r.text, formatCitation r, q⟩

def mkEv (s : Scored) : Evidence := evOf s.row s.score

/-- Stable insertion step for a descending sort: the new element, which
precedes the already-sorted elements in the original list, goes before the
first element whose key is not larger (Python `list.sort` with
`reverse=True` is stable). -/
def insertDescBy {α β : Type} [LinearOrder β] (key : α → β) (x : α) : List α → List α
  | [] => [x]
  | y :: ys => if key y ≤ key x then x :: y :: ys else y :: insertDescBy key x ys

/-- Stable descending sort by a key, modelling Python's stable
`scored.sort(key=..., reverse=True)` (`retrieval.py` line 159). -/
def sortDescBy {α β : Type} [LinearOrder β] (key : α → β) : List α → List α
  | [] => []
  | x :: xs => insertDescBy key x (sortDescBy key xs)

/-- Stable insertion step for an ascending sort. -/
def insertAscBy {α β : Type} [LinearOrder β] (key : α → β) (x : α) : List α → List α
  | [] => [x]
  | y :: ys => if key x ≤ key y then x :: y :: ys else y :: insertAscBy key x ys

/-- Ascending sort by a key, modelling the SQL `ORDER BY ... ASC` clauses. -/
def sortAscBy {α β : Type} [LinearOrder β] (key : α → β) : List α → List α
  | [] => []
  | x :: xs => insertAscBy key x (sortAscBy key xs)

/-- `_norm(vals)` (`retrieval.py` lines 6-12): min-max scaling, with every
value mapped to `1.0` when the range is below `1e-12`. -/
def norm (vals : List ℚ) : List ℚ :=
  match vals with
  | [] => []
  | v :: vs =>
    let mn := vs.foldl min v
    let mx := vs.foldl max v
    if mx - mn < 1 / 1000000000000 then vals.map (fun _ => 1)
    else vals.map (fun x => (x - mn) / (mx - mn))

/-- The `AND c.item_id = :item_id` clause, present only when an item filter
was supplied (`retrieval.py` lines 66-68). -/
def itemOk (iid : Option Nat) (r : ChunkRow) : Bool :=
  match iid with
  | some i => r.itemId == i
  | none => true

/-- The optional time clause (`retrieval.py` lines 71-80): when both bounds
are supplied, either the chunk's own time start is in range, or the chunk has
no time start and the item's source time is in range. -/
def timeOk (ts te : Option ℚ) (r : ChunkRow) : Bool :=
  match ts, te with
  | some a, some b =>
    (match r.chunkTimeStart with
     | some t => decide (a ≤ t ∧ t ≤ b)
     | none =>
       match r.item.sourceTime with
       | some st => decide (a ≤ st ∧ st ≤ b)
       | none => false)
  | _, _ => true

/-- The vector-candidate query (`retrieval.py` lines 82-101): when a query
embedding exists, filter to the user's chunks with a non-null embedding (plus
the optional item and time clauses), order by cosine distance ascending, limit
`k`, and pair each row with `sim = 1 - distance`. `dist` abstracts the
`<=>` operator against the query vector. -/
def vecCands (db : List ChunkRow) (uid : Nat) (qEmb : Option (List ℚ))
    (dist : List ℚ → ℚ) (iid : Option Nat) (ts te : Option ℚ) (k : Nat) :
    List (ChunkRow × ℚ) :=
  match qEmb with
  | none => []
  | some _ =>
    ((sortAscBy (fun r => dist (r.embedding.getD []))
        (db.filter (fun r =>
          r.userId == uid && r.embedding.isSome && itemOk iid r && timeOk ts te r))).take k).map
      (fun r => (r, 1 - dist (r.embedding.getD [])))

/-- The keyword-candidate query (`retrieval.py` lines 104-120): filter to the
user's chunks matching the full-text query (plus the optional item and time
clauses), order by `ts_rank_cd` descending, limit `k`. `fts` abstracts
`tsv @@ plainto_tsquery(q)` and `rank` abstracts `ts_rank_cd`. -/
def kwCands (db : List ChunkRow) (uid : Nat) (fts : ChunkRow → Bool)
    (rank : ChunkRow → ℚ) (iid : Option Nat) (ts te : Option ℚ) (k : Nat) :
    List (ChunkRow × ℚ) :=
  ((sortDescBy rank
      (db.filter (fun r =>
        r.userId == uid && fts r && itemOk iid r && timeOk ts te r))).take k).map
    (fun r => (r, rank r))

/-- The item-filter fallback query (`retrieval.py` lines 122-137): the item's
chunks in ascending `chunk_index` order, limit `k`, with `0.0 as rank`. -/
def fallbackCands (db : List ChunkRow) (uid i k : Nat) : List (ChunkRow × ℚ) :=
  ((sortAscBy (fun r => r.chunkIndex)
      (db.filter (fun r => r.userId == uid && r.itemId == i))).take k).map
    (fun r => (r, 0))

/-- The keyword candidate set actually used downstream: the fallback replaces
`kw_rows` when both candidate sets are empty and an item filter was supplied
(`retrieval.py` lines 122-137). -/
def kwOrFallback (db : List ChunkRow) (uid : Nat) (fts : ChunkRow → Bool)
    (rank : ChunkRow → ℚ) (iid : Option Nat) (ts te : Option ℚ) (k : Nat)
    (vecRows : List (ChunkRow × ℚ)) : List (ChunkRow × ℚ) :=
  match iid with
  | some i =>
    if vecRows.isEmpty && (kwCands db uid fts rank iid ts te k).isEmpty
    then fallbackCands db uid i k
    else kwCands db uid fts rank iid ts te k
  | none => kwCands db uid fts rank iid ts te k

/-- First-occurrence key order of the Python `merged` dict (`retrieval.py`
lines 142-151): a dict keyed by chunk id, keys in order of first insertion,
with `seen` accumulating the keys already inserted. -/
def firstKeysAux : List Nat → List Nat → List Nat
  | [], _ => []
  | x :: xs, seen =>
    if x ∈ seen then firstKeysAux xs seen else x :: firstKeysAux xs (x :: seen)

def firstKeys (l : List Nat) : List Nat := firstKeysAux l []

/-- Fold computing a signal value of the `merged` dict: start at `0.0` (the
`setdefault` default) and take `max` with the normalized value of every
candidate-list occurrence of the chunk id (`retrieval.py` lines 143-151). -/
def maxMatch (cid : Nat) : List (ChunkRow × ℚ) → ℚ → ℚ
  | [], acc => acc
  | (r, s) :: t, acc => maxMatch cid t (if r.chunkId = cid then max acc s else acc)

/-- The per-chunk value of one signal after normalization: the candidate rows
are zipped with the normalized value list and folded by `maxMatch`. -/
def signalVal (rows : List (ChunkRow × ℚ)) (normed : List ℚ) (cid : Nat) : ℚ :=
  maxMatch cid ((rows.map Prod.fst).zip normed) 0

/-- The chunk ids of a candidate list, in order. -/
def candIds (rows : List (ChunkRow × ℚ)) : List Nat :=
  rows.map (fun p => p.1.chunkId)

/-- The fused `scored` list (`retrieval.py` lines 139-157): chunk ids in
first-seen order (vector candidates then keyword candidates), each paired with
its first-seen row and the fused score
`0.6 * semantic + 0.4 * lexical` of normalized signal values. -/
def fusedScored (v kw : List (ChunkRow × ℚ)) : List Scored :=
  (firstKeys (candIds v ++ candIds kw)).filterMap
    (fun cid =>
      (((v ++ kw).map Prod.fst).find? (fun r => r.chunkId == cid)).map
        (fun r =>
          ⟨(0.6 : ℚ) * signalVal v (norm (v.map Prod.snd)) cid +
            (0.4 : ℚ) * signalVal kw (norm (kw.map Prod.snd)) cid, r⟩))

/-- Bump the per-item counter of the diversity walk. -/
def bump (cnt : Nat → Nat) (i : Nat) : Nat → Nat :=
  fun j => if j = i then cnt j + 1 else cnt j

/-- The diversity-capped walk over the sorted candidates
(`retrieval.py` lines 161-178): increment the item's counter, skip the
candidate when the counter exceeds 3, otherwise append its evidence entry and
stop once `top_k` entries are collected. -/
def walkAux (topk : Nat) : List Scored → (Nat → Nat) → List Evidence → List Evidence
  | [], _, ev => ev
  | s :: rest, cnt, ev =>
    if cnt s.row.itemId + 1 > 3 then walkAux topk rest (bump cnt s.row.itemId) ev
    else
      if topk ≤ (ev ++ [mkEv s]).length then ev ++ [mkEv s]
      else walkAux topk rest (bump cnt s.row.itemId) (ev ++ [mkEv s])

/-- `hybrid_retrieve` (`retrieval.py` lines 33-180). `qEmb` is the result of
the guarded query-embedding attempt (`none` when `embed_texts` raised), `dist`
abstracts cosine distance to the query vector, `fts` and `rank` abstract the
full-text match and `ts_rank_cd`. -/
def scoredOf (db : List ChunkRow) (uid : Nat) (qEmb : Option (List ℚ))
    (dist : List ℚ → ℚ) (fts : ChunkRow → Bool) (rank : ChunkRow → ℚ)
    (iid : Option Nat) (ts te : Option ℚ) (topk : Nat) : List Scored :=
  sortDescBy Scored.score
    (fusedScored (vecCands db uid qEmb dist iid ts te (topk * 4))
      (kwOrFallback db uid fts rank iid ts te (topk * 4)
        (vecCands db uid qEmb dist iid ts te (topk * 4))))

def hybridRetrieve (db : List ChunkRow) (uid : Nat) (qEmb : Option (List ℚ))
    (dist : List ℚ → ℚ) (fts : ChunkRow → Bool) (rank : ChunkRow → ℚ)
    (iid : Option Nat) (ts te : Option ℚ) (topk : Nat) : List Evidence :=
  walkAux topk (scoredOf db uid qEmb dist fts rank iid ts te topk) (fun _ => 0) []

/-- Whether a row with the `(item_id, chunk_index)` key already exists:
the conflict target of the chunk inserts (`worker.py` line 98). -/
def keyPresent (db : List ChunkRow) (iid idx : Nat) : Bool :=
  db.any (fun r => r.itemId == iid && r.chunkIndex == idx)

/-- One `INSERT ... ON CONFLICT (item_id, chunk_index) DO NOTHING`
(`worker.py` lines 86-112 and 131-156). -/
def insertChunkRow (db : List ChunkRow) (row : ChunkRow) : List ChunkRow :=
  if keyPresent db row.itemId row.chunkIndex then db else db ++ [row]

def insertRows (db : List ChunkRow) (rows : List ChunkRow) : List ChunkRow :=
  rows.foldl insertChunkRow db

/-- The rows built by `_insert_chunks_no_embed` (`worker.py` lines 129-156):
sequential indices from `idx0`, `NULL` embedding, the text's hash, a fresh id
from `supply` and the shared pointer descriptor. `item` carries the item
attributes the row joins to in the retrieval queries. -/
def noEmbedRows (hash : List Char → Nat) (supply : Nat → Nat) (now : ℚ)
    (uid iid : Nat) (item : ItemAttrs) (pt ps pe : List Char) (cts cte : Option ℚ) :
    Nat → List (List Char) → List ChunkRow
  | _, [] => []
  | idx0, t :: ts =>
    ⟨supply idx0, uid, iid, idx0, t, none, hash t, pt, ps, pe, cts, cte, now, item⟩ ::
      noEmbedRows hash supply now uid iid item pt ps pe cts cte (idx0 + 1) ts

/-- `_insert_chunks_no_embed` (`worker.py` lines 115-157). -/
def insertChunksNoEmbed (hash : List Char → Nat) (supply : Nat → Nat) (now : ℚ)
    (db : List ChunkRow) (uid iid : Nat) (item : ItemAttrs)
    (texts : List (List Char)) (pt ps pe : List Char) (cts cte : Option ℚ) :
    List ChunkRow :=
  if texts.isEmpty then db
  else insertRows db (noEmbedRows hash supply now uid iid item pt ps pe cts cte 0 texts)

/-- Outcome of one call to the external embedding provider
(`embeddings.py` lines 15-19). -/
inductive EmbedOutcome where
  | ok (vs : List (List ℚ))
  | err
deriving DecidableEq

/-- `embed_texts(texts)` (`embeddings.py` lines 8-20): raises when no API key
is configured, otherwise propagates the provider outcome. -/
def embedTexts (hasKey : Bool) (outcome : EmbedOutcome) :
    (texts : List (List Char)) → Except Unit (List (List ℚ))
  | _ =>
    if hasKey = false then Except.error ()
    else
      match outcome with
      | .ok vs => Except.ok vs
      | .err => Except.error ()

/-- `_embed_or_none(texts)` (`worker.py` lines 28-36): all-`none` without a
key; otherwise run `embed_texts` under a 70s bounded wait (`timedOut` is the
wait being exceeded) and map any failure to all-`none`. -/
def embedOrNone (hasKey : Bool) (outcome : EmbedOutcome) (timedOut : Bool)
    (texts : List (List Char)) : List (Option (List ℚ)) :=
  if hasKey = false then texts.map (fun _ => none)
  else if timedOut then texts.map (fun _ => none)
  else
    match embedTexts hasKey outcome texts with
    | .ok vs => vs.map some
    | .error _ => texts.map (fun _ => none)

/-- The rows built by `_insert_chunks` (`worker.py` lines 82-112): like
`noEmbedRows` but with the embedding paired to each text. -/
def embedRows (hash : List Char → Nat) (supply : Nat → Nat) (now : ℚ)
    (uid iid : Nat) (item : ItemAttrs) (pt ps pe : List Char) (cts cte : Option ℚ) :
    Nat → List (List Char × Option (List ℚ)) → List ChunkRow
  | _, [] => []
  | idx0, (t, e) :: ts =>
    ⟨supply idx0, uid, iid, idx0, t, e, hash t, pt, ps, pe, cts, cte, now, item⟩ ::
      embedRows hash supply now uid iid item pt ps pe cts cte (idx0 + 1) ts

/-- `_insert_chunks` (`worker.py` lines 64-113): embed the texts through the
gateway, then insert each `(text, embedding)` pair with its sequential index. -/
def insertChunks (hash : List Char → Nat) (supply : Nat → Nat) (now : ℚ)
    (hasKey : Bool) (outcome : EmbedOutcome) (timedOut : Bool)
    (db : List ChunkRow) (uid iid : Nat) (item : ItemAttrs)
    (texts : List (List Char)) (pt ps pe : List Char) (cts cte : Option ℚ) :
    List ChunkRow :=
  if texts.isEmpty then db
  else
    insertRows db
      (embedRows hash supply now uid iid item pt ps pe cts cte 0
        (texts.zip (embedOrNone hasKey outcome timedOut texts)))

/-- Item lifecycle states (`worker.py` `_set_status`, `main.py` inserts with
status `PENDING`). -/
inductive IngestStatus where
  | pending
  | processing
  | ready
  | failed
deriving DecidableEq

def isTerminal : IngestStatus → Bool
  | .ready => true
  | .failed => true
  | _ => false

/-- The transitions the spec's lifecycle allows:
`PENDING → PROCESSING → {READY | FAILED}`. -/
def allowedStep (a b : IngestStatus) : Bool :=
  match a, b with
  | .pending, .processing => true
  | .processing, .ready => true
  | .processing, .failed => true
  | _, _ => false

/-- Whether every consecutive pair of a status history is an allowed
transition. -/
def chainOk : List IngestStatus → Bool
  | a :: b :: t => allowedStep a b && chainOk (b :: t)
  | _ => true

set_option linter.unusedVariables false in
/-- The sequence of `_set_status` writes performed by one run of `ingest_web`
(`worker.py` lines 159-205): `PROCESSING` first; then `READY` when the body
completes, `FAILED` when it raises. `extractOk` is the inner extraction
attempt, whose failure is caught and degraded to an empty-text pass without a
status write (lines 165-170). -/
def ingestWebStatusTrace (extractOk workOk : Bool) : List IngestStatus :=
  [IngestStatus.processing] ++
    (if workOk then [IngestStatus.ready] else [IngestStatus.failed])

/-- Python `tags_csv.split(",")` (`worker.py` line 387). -/
def splitCommaAux : List Char → List Char → List (List Char)
  | [], acc => [acc.reverse]
  | c :: rest, acc =>
    if c = ',' then acc.reverse :: splitCommaAux rest []
    else splitCommaAux rest (c :: acc)

def splitComma (s : List Char) : List (List Char) := splitCommaAux s []

/-- `[t.strip() for t in (tags_csv or "").split(",") if t.strip()]`
(`worker.py` line 387). -/
def imageTags (tagsCsv : List Char) : List (List Char) :=
  ((splitComma tagsCsv).map pyStrip).filter (fun t => !t.isEmpty)

/-- Python `", ".join(tags)`. -/
def joinCommaSpace : List (List Char) → List Char
  | [] => []
  | [t] => t
  | t :: ts => t ++ ", ".toList ++ joinCommaSpace ts

/-- The synthesized searchable text of the IMAGE pass (`worker.py` lines
394-397): `"\n".join([f"Description: {description_text or ''}".strip(),
f"Tags: {', '.join(tags)}" if tags else "Tags:"]).strip()`. -/
def imageSearchable (desc tagsCsv : List Char) : List Char :=
  pyStrip
    ((pyStrip ("Description: ".toList ++ desc)) ++ '\n' ::
      (if (imageTags tagsCsv).isEmpty then "Tags:".toList
       else "Tags: ".toList ++ joinCommaSpace (imageTags tagsCsv)))

/-- `chunk_text(searchable) or [searchable]` (`worker.py` line 399), fuelled
through the chunker: `none` when `chunk_text` does not return. -/
def imageChunksOf (fuel : Nat) (desc tagsCsv : List Char) :
    Option (List (List Char)) :=
  match chunkText fuel (imageSearchable desc tagsCsv) 2000 200 with
  | none => none
  | some cs => some (if cs.isEmpty then [imageSearchable desc tagsCsv] else cs)

/-- The chunk-producing tail of `ingest_image_metadata` (`worker.py` lines
394-400): synthesize the searchable text, chunk it (falling back to one raw
chunk) and write the chunks through `_insert_chunks` with an `IMAGE_REF`
pointer. `none` when the chunker does not return. -/
def ingestImagePass (fuel : Nat) (hash : List Char → Nat) (supply : Nat → Nat)
    (now : ℚ) (hasKey : Bool) (outcome : EmbedOutcome) (timedOut : Bool)
    (db : List ChunkRow) (uid iid : Nat) (item : ItemAttrs)
    (rawKey desc tagsCsv : List Char) : Option (List ChunkRow) :=
  match imageChunksOf fuel desc tagsCsv with
  | none => none
  | some cs =>
    some (insertChunks hash supply now hasKey outcome timedOut db uid iid item cs
      "IMAGE_REF".toList rawKey [] none none)

/-- Number of stored chunks with a given `(item_id, chunk_index)` key. -/
def keyCount (db : List ChunkRow) (iid idx : Nat) : Nat :=
  db.countP (fun r => r.itemId == iid && r.chunkIndex == idx)

/-- Concrete helpers for witnesses and counterexamples. -/
def hash0 : List Char → Nat := fun _ => 0

def supply0 : Nat → Nat := fun n => n + 100

def item0 : ItemAttrs := ⟨[], [], [], none⟩

/-- The spec-side value of one signal for a candidate (spec §4.5 steps 5-7):
the min-max-normalized raw value at the chunk's position in the candidate
list, or `0` when the candidate set does not contain the chunk. -/
def normedSignal (rows : List (ChunkRow × ℚ)) (cid : Nat) : ℚ :=
  match ((rows.map Prod.fst).zip (norm (rows.map Prod.snd))).find?
      (fun p => p.1.chunkId == cid) with
  | some p => p.2
  | none => 0

/-- A one-candidate concrete instance used by witnesses. -/
def rowA : ChunkRow :=
  ⟨21, 1, 7, 0, ['t'], none, 0, [], [], [], none, none, 0, item0⟩

/-- The candidates the diversity walk admits: keep a candidate only while its
item's running counter (which counts every candidate seen, admitted or not)
is at most 3. The walk equals `top_k`-truncation of this filtered list, which
makes precise that a skipped candidate does not end the walk. -/
def cap3Filter : List Scored → (Nat → Nat) → List Scored
  | [], _ => []
  | s :: rest, cnt =>
    if cnt s.row.itemId + 1 > 3 then cap3Filter rest (bump cnt s.row.itemId)
    else s :: cap3Filter rest (bump cnt s.row.itemId)

/-- Number of entries of an item in a scored list. -/
def itemCountS (l : List Scored) (j : Nat) : Nat :=
  l.countP (fun s => s.row.itemId == j)

/-- The item's chunks in stored `chunk_index` order, as the fallback query
produces them before the limit (`retrieval.py` lines 123-136). -/
def fallbackSorted (db : List ChunkRow) (uid i : Nat) : List ChunkRow :=
  sortAscBy (fun r => r.chunkIndex)
    (db.filter (fun r => r.userId == uid && r.itemId == i))

/-- Degenerate query-side functions for concrete instances: a constant cosine
distance, a full-text match that never fires, and a zero rank. -/
def dist0 : List ℚ → ℚ := fun _ => 0

def fts0 : ChunkRow → Bool := fun _ => false

def rank0 : ChunkRow → ℚ := fun _ => 0

/-- A chunk row of item 7, user 1, with the given id and index. -/
def cRow (cid idx : Nat) : ChunkRow :=
  ⟨cid, 1, 7, idx, ['t'], none, 0, [], [], [], none, none, 0, item0⟩

/-- Four stored chunks of one item, indices 0 to 3. -/
def db4 : List ChunkRow := [cRow 0 0, cRow 1 1, cRow 2 2, cRow 3 3]

/-- The failing IMAGE description: 2001 characters with no paragraph break. -/
def c10desc : List Char := List.replicate 2001 'a'

/-- The searchable text the IMAGE pass synthesizes for `c10desc` and empty
tags: one 2020-character paragraph. -/
def c10text : List Char :=
  "Description: ".toList ++ c10desc ++ '\n' :: "Tags:".toList

theorem dropWhile_idem (p : Char → Bool) (l : List Char) :
    (l.dropWhile p).dropWhile p = l.dropWhile p := by
  induction l with
  | nil => rfl
  | cons c t ih =>
    by_cases h : p c
    · simp [List.dropWhile_cons, h, ih]
    · simp [List.dropWhile_cons, h]

theorem dropWhile_append_singleton (p : Char → Bool) (u : List Char) (a : Char)
    (h : p a = false) : (u ++ [a]).dropWhile p = u.dropWhile p ++ [a] := by
  induction u with
  | nil => simp [List.dropWhile_cons, h]
  | cons c t ih =>
    by_cases hc : p c
    · simp [List.dropWhile_cons, hc, ih]
    · simp [List.dropWhile_cons, hc]

theorem stripLead_cons_of (a : Char) (t : List Char) (h : a.isWhitespace = false) :
    stripLead (a :: t) = a :: t := by
  simp [stripLead, List.dropWhile_cons, h]

theorem stripTail_cons_of (a : Char) (t : List Char) (h : a.isWhitespace = false) :
    stripTail (a :: t) = a :: stripTail t := by
  simp only [stripTail, List.reverse_cons]
  rw [dropWhile_append_singleton _ _ _ h, List.reverse_append]
  rfl

theorem stripLead_idem (s : List Char) : stripLead (stripLead s) = stripLead s :=
  dropWhile_idem _ s

theorem stripTail_idem (s : List Char) : stripTail (stripTail s) = stripTail s := by
  unfold stripTail
  rw [List.reverse_reverse, dropWhile_idem]

theorem stripLead_stripTail (s : List Char) (hs : stripLead s = s) :
    stripLead (stripTail s) = stripTail s := by
  cases s with
  | nil => rfl
  | cons a t =>
    have ha : a.isWhitespace = false := by
      by_contra hcontra
      have ha' : a.isWhitespace = true := by
        cases h : a.isWhitespace
        · exact absurd h hcontra
        · rfl
      have : stripLead (a :: t) = stripLead t := by
        simp [stripLead, List.dropWhile_cons, ha']
      rw [hs] at this
      have hlen : (stripLead t).length ≤ t.length := (List.dropWhile_sublist _).length_le
      rw [← this] at hlen
      simp at hlen
    rw [stripTail_cons_of a t ha]
    exact stripLead_cons_of a _ ha

theorem pyStrip_idem (s : List Char) : pyStrip (pyStrip s) = pyStrip s := by
  unfold pyStrip
  rw [stripLead_stripTail (stripLead s) (stripLead_idem s), stripTail_idem]

theorem length_stripLead_le (s : List Char) : (stripLead s).length ≤ s.length :=
  (List.dropWhile_sublist _).length_le

theorem length_pyStrip_le (s : List Char) : (pyStrip s).length ≤ s.length := by
  have h1 : (stripTail (stripLead s)).length ≤ (stripLead s).length := by
    unfold stripTail
    calc ((stripLead s).reverse.dropWhile Char.isWhitespace).reverse.length
        = ((stripLead s).reverse.dropWhile Char.isWhitespace).length := by
          rw [List.length_reverse]
      _ ≤ (stripLead s).reverse.length := (List.dropWhile_sublist _).length_le
      _ = (stripLead s).length := by rw [List.length_reverse]
  exact le_trans h1 (length_stripLead_le s)

theorem splitParasAux_no_double (l : List Char) :
    ∀ acc, hasDoubleNL l = false → splitParasAux l acc = [acc.reverse ++ l] := by
  induction l with
  | nil => intro acc _; simp [splitParasAux]
  | cons c rest ih =>
    intro acc h
    cases rest with
    | nil => simp [splitParasAux]
    | cons d t =>
      have hcond : ¬ (c = '\n' ∧ d = '\n') := by
        intro ⟨hc, hd⟩
        rw [hasDoubleNL, hc, hd] at h
        simp at h
      have hrest : hasDoubleNL (d :: t) = false := by
        rw [hasDoubleNL] at h
        exact (Bool.or_eq_false_iff.mp h).2
      rw [splitParasAux, if_neg hcond, ih (c :: acc) hrest]
      simp

theorem resplit_eq_none (mc ov : Nat) (hov : 0 < ov) (c : List Char) :
    ∀ fuel i, i < c.length → resplit mc ov fuel i c = none := by
  intro fuel
  induction fuel with
  | zero => intro i _; rfl
  | succ n ih =>
    intro i hi
    have hlt : min c.length (i + mc) - ov < c.length := by
      have h1 : min c.length (i + mc) ≤ c.length := min_le_left _ _
      omega
    rw [resplit, if_pos hi, ih _ hlt]

theorem enforce_eq_none (mc ov fuel : Nat) (hov : 0 < ov)
    (chunks : List (List Char)) (h : ∃ c ∈ chunks, mc < c.length) :
    enforce mc ov fuel chunks = none := by
  induction chunks with
  | nil => obtain ⟨c, hc, _⟩ := h; cases hc
  | cons c cs ih =>
    by_cases hcl : c.length ≤ mc
    · obtain ⟨d, hd, hdl⟩ := h
      rcases List.mem_cons.mp hd with rfl | hdcs
      · omega
      · rw [enforce, if_pos hcl, ih ⟨d, hdcs, hdl⟩]
        rfl
    · rw [enforce, if_neg hcl, resplit_eq_none mc ov hov c fuel 0 (by omega)]

/-- C1: the claim says the re-split loop of `chunk_text` always advances by
`max_chars - overlap` and terminates. On the 12-character single paragraph
`"aaaaaaaaaaaa"` with `max_chars = 10`, `overlap = 2` the loop reaches window
start 10, recomputes `i = max(0, 12 - 2) = 10` forever, and `chunk_text` does
not return for any fuel. -/
theorem C1_resplit_loop_diverges :
    ∀ fuel : Nat, chunkText fuel (List.replicate 12 'a') 10 2 = none := by
  intro fuel
  have hpack : packLoop 10 (parasOf (pyStrip (List.replicate 12 'a'))) [] [] =
      [List.replicate 12 'a'] := by decide
  have henf : enforce 10 2 fuel [List.replicate 12 'a'] = none :=
    enforce_eq_none 10 2 fuel (by norm_num) _
      ⟨List.replicate 12 'a', List.mem_singleton_self _, by decide⟩
  rw [chunkText, if_neg (by decide), hpack, henf]

/-- C8: each run of `ingest_web` writes `PROCESSING` and then exactly one of
`READY`/`FAILED`; prefixed with the `PENDING` assigned at submission, the
status history follows only the allowed transitions, no state before the last
is terminal, and the last state is terminal (so terminal states are never left
within the pass). -/
theorem C8_status_monotonic :
    ∀ extractOk workOk : Bool,
      chainOk (IngestStatus.pending :: ingestWebStatusTrace extractOk workOk) = true ∧
      (IngestStatus.pending :: ingestWebStatusTrace extractOk workOk).dropLast.all
        (fun s => !isTerminal s) = true ∧
      isTerminal
        ((IngestStatus.pending :: ingestWebStatusTrace extractOk workOk).getLastD
          IngestStatus.pending) = true := by
  intro extractOk workOk
  cases extractOk <;> cases workOk <;> decide

/-- C6: the embedding gateway returns one entry per input text in order; with
no credential it is all-absent immediately, and provider failure or an
exceeded bounded wait also yield all-absent instead of an error. -/
theorem C6_embed_gateway (hasKey timedOut : Bool) (outcome : EmbedOutcome)
    (texts : List (List Char))
    (hlen : ∀ vs, outcome = EmbedOutcome.ok vs → vs.length = texts.length) :
    (embedOrNone hasKey outcome timedOut texts).length = texts.length ∧
    (hasKey = false →
      embedOrNone hasKey outcome timedOut texts = texts.map (fun _ => none)) ∧
    (timedOut = true →
      embedOrNone hasKey outcome timedOut texts = texts.map (fun _ => none)) ∧
    (outcome = EmbedOutcome.err →
      embedOrNone hasKey outcome timedOut texts = texts.map (fun _ => none)) ∧
    (∀ vs, outcome = EmbedOutcome.ok vs → hasKey = true → timedOut = false →
      embedOrNone hasKey outcome timedOut texts = vs.map some) := by
  refine ⟨?_, ?_, ?_, ?_, ?_⟩
  · cases hasKey with
    | false => simp [embedOrNone]
    | true =>
      cases timedOut with
      | true => simp [embedOrNone]
      | false =>
        cases outcome with
        | ok vs => simp [embedOrNone, embedTexts, hlen vs rfl]
        | err => simp [embedOrNone, embedTexts]
  · intro h; subst h; simp [embedOrNone]
  · intro h; subst h
    cases hasKey <;> simp [embedOrNone]
  · intro h; subst h
    cases hasKey <;> cases timedOut <;> simp [embedOrNone, embedTexts]
  · intro vs h hk ht; subst h; subst hk; subst ht
    simp [embedOrNone, embedTexts]

/-- C6 witness: with no credential configured the gateway maps two texts to
two absent embeddings without an error. -/
theorem C6_embed_gateway_witness :
    (embedOrNone false EmbedOutcome.err false [['a'], ['b']]).length = 2 ∧
    embedOrNone false EmbedOutcome.err false [['a'], ['b']] = [none, none] := by
  have h := C6_embed_gateway false false EmbedOutcome.err [['a'], ['b']]
    (fun vs hv => by cases hv)
  exact ⟨h.1, h.2.1 rfl⟩

theorem keyPresent_insert_mono (db : List ChunkRow) (row : ChunkRow) (iid idx : Nat)
    (h : keyPresent db iid idx = true) :
    keyPresent (insertChunkRow db row) iid idx = true := by
  unfold insertChunkRow
  split
  · exact h
  · simp [keyPresent, List.any_append]
    left
    simpa [keyPresent] using h

theorem keyPresent_insertRows_mono (rows : List ChunkRow) :
    ∀ db iid idx, keyPresent db iid idx = true →
      keyPresent (insertRows db rows) iid idx = true := by
  induction rows with
  | nil => intro db iid idx h; exact h
  | cons s t ih =>
    intro db iid idx h
    exact ih _ _ _ (keyPresent_insert_mono db s iid idx h)

theorem keyPresent_insert_self (db : List ChunkRow) (row : ChunkRow) :
    keyPresent (insertChunkRow db row) row.itemId row.chunkIndex = true := by
  unfold insertChunkRow
  split
  · assumption
  · simp [keyPresent, List.any_append]

theorem keyPresent_after_insertRows (rows : List ChunkRow) :
    ∀ db r, r ∈ rows →
      keyPresent (insertRows db rows) r.itemId r.chunkIndex = true := by
  induction rows with
  | nil => intro db r hr; cases hr
  | cons s t ih =>
    intro db r hr
    rcases List.mem_cons.mp hr with rfl | hrt
    · exact keyPresent_insertRows_mono t _ _ _ (keyPresent_insert_self db r)
    · exact ih _ _ hrt

theorem insertRows_noop (rows : List ChunkRow) :
    ∀ db, (∀ r ∈ rows, keyPresent db r.itemId r.chunkIndex = true) →
      insertRows db rows = db := by
  induction rows with
  | nil => intro db _; rfl
  | cons s t ih =>
    intro db h
    have hs : insertChunkRow db s = db := by
      unfold insertChunkRow
      rw [h s (List.mem_cons_self s t)]
      simp
    show insertRows (insertChunkRow db s) t = db
    rw [hs]
    exact ih db (fun r hr => h r (List.mem_cons_of_mem s hr))

theorem mem_noEmbedRows (hash : List Char → Nat) (supply : Nat → Nat) (now : ℚ)
    (uid iid : Nat) (item : ItemAttrs) (pt ps pe : List Char) (cts cte : Option ℚ) :
    ∀ (texts : List (List Char)) (idx0 : Nat) (r : ChunkRow),
      r ∈ noEmbedRows hash supply now uid iid item pt ps pe cts cte idx0 texts →
      r.itemId = iid ∧ idx0 ≤ r.chunkIndex ∧ r.chunkIndex < idx0 + texts.length ∧
        r.embedding = none := by
  intro texts
  induction texts with
  | nil => intro idx0 r hr; cases hr
  | cons t ts ih =>
    intro idx0 r hr
    rcases List.mem_cons.mp hr with rfl | hrt
    · refine ⟨rfl, le_refl _, ?_, rfl⟩
      simp
    · obtain ⟨h1, h2, h3, h4⟩ := ih (idx0 + 1) r hrt
      refine ⟨h1, by omega, by simp; omega, h4⟩

theorem key_mem_noEmbedRows (hash : List Char → Nat) (supply : Nat → Nat) (now : ℚ)
    (uid iid : Nat) (item : ItemAttrs) (pt ps pe : List Char) (cts cte : Option ℚ) :
    ∀ (texts : List (List Char)) (idx0 j : Nat), idx0 ≤ j → j < idx0 + texts.length →
      ∃ r ∈ noEmbedRows hash supply now uid iid item pt ps pe cts cte idx0 texts,
        r.itemId = iid ∧ r.chunkIndex = j := by
  intro texts
  induction texts with
  | nil => intro idx0 j h1 h2; simp at h2; omega
  | cons t ts ih =>
    intro idx0 j h1 h2
    by_cases hj : j = idx0
    · subst hj
      exact ⟨_, List.mem_cons_self _ _, rfl, rfl⟩
    · have := ih (idx0 + 1) j (by omega) (by simp at h2 ⊢; omega)
      obtain ⟨r, hr, hri, hrj⟩ := this
      exact ⟨r, List.mem_cons_of_mem _ hr, hri, hrj⟩

theorem keyCount_insert_le (db : List ChunkRow) (row : ChunkRow) (iid idx : Nat)
    (h : keyCount db iid idx ≤ 1) : keyCount (insertChunkRow db row) iid idx ≤ 1 := by
  unfold insertChunkRow
  split
  · exact h
  · rename_i hpres
    unfold keyCount at h ⊢
    rw [List.countP_append]
    by_cases hkey : (row.itemId == iid && row.chunkIndex == idx) = true
    · have hzero : db.countP (fun r => r.itemId == iid && r.chunkIndex == idx) = 0 := by
        rw [List.countP_eq_zero]
        intro a ha hmatch
        apply hpres
        unfold keyPresent
        rw [List.any_eq_true]
        refine ⟨a, ha, ?_⟩
        simp at hmatch hkey ⊢
        omega
      rw [hzero]
      simp [List.countP_cons, hkey]
    · have : List.countP (fun r => r.itemId == iid && r.chunkIndex == idx) [row] = 0 := by
        simp [List.countP_cons, hkey]
      omega

theorem keyCount_insertRows_le (rows : List ChunkRow) :
    ∀ db iid idx, keyCount db iid idx ≤ 1 →
      keyCount (insertRows db rows) iid idx ≤ 1 := by
  induction rows with
  | nil => intro db iid idx h; exact h
  | cons s t ih =>
    intro db iid idx h
    exact ih _ _ _ (keyCount_insert_le db s iid idx h)

theorem keyCount_pos_of_present (db : List ChunkRow) (iid idx : Nat)
    (h : keyPresent db iid idx = true) : 1 ≤ keyCount db iid idx := by
  unfold keyPresent at h
  rw [List.any_eq_true] at h
  obtain ⟨a, ha, hmatch⟩ := h
  unfold keyCount
  have hpos : 0 < db.countP (fun r => r.itemId == iid && r.chunkIndex == idx) :=
    List.countP_pos_iff.mpr ⟨a, ha, hmatch⟩
  omega

theorem insertRows_all_new (hash : List Char → Nat) (supply : Nat → Nat) (now : ℚ)
    (uid iid : Nat) (item : ItemAttrs) (pt ps pe : List Char) (cts cte : Option ℚ) :
    ∀ (texts : List (List Char)) (idx0 : Nat) (db : List ChunkRow),
      (∀ r ∈ db, r.itemId ≠ iid ∨ r.chunkIndex < idx0) →
      insertRows db (noEmbedRows hash supply now uid iid item pt ps pe cts cte idx0 texts) =
        db ++ noEmbedRows hash supply now uid iid item pt ps pe cts cte idx0 texts := by
  intro texts
  induction texts with
  | nil => intro idx0 db _; simp [noEmbedRows, insertRows]
  | cons t ts ih =>
    intro idx0 db hdb
    rw [noEmbedRows]
    show insertRows
        (insertChunkRow db ⟨supply idx0, uid, iid, idx0, t, none, hash t,
          pt, ps, pe, cts, cte, now, item⟩) _ = _
    have hnotpres : keyPresent db iid idx0 = false := by
      cases hkp : keyPresent db iid idx0 with
      | false => rfl
      | true =>
        exfalso
        unfold keyPresent at hkp
        rw [List.any_eq_true] at hkp
        obtain ⟨a, ha, hmatch⟩ := hkp
        simp at hmatch
        rcases hdb a ha with h1 | h2
        · exact h1 hmatch.1
        · omega
    rw [insertChunkRow]
    simp only [hnotpres]
    rw [if_neg (by simp)]
    rw [ih (idx0 + 1) _ ?_]
    · simp [noEmbedRows]
    · intro r hr
      rcases List.mem_append.mp hr with hdbr | hnew
      · rcases hdb r hdbr with h1 | h2
        · exact Or.inl h1
        · exact Or.inr (by omega)
      · simp at hnew
        subst hnew
        exact Or.inr (by simp)

theorem noEmbedRows_chunkIndex (hash : List Char → Nat) (supply : Nat → Nat) (now : ℚ)
    (uid iid : Nat) (item : ItemAttrs) (pt ps pe : List Char) (cts cte : Option ℚ) :
    ∀ (texts : List (List Char)) (idx0 : Nat),
      (noEmbedRows hash supply now uid iid item pt ps pe cts cte idx0 texts).map
          (fun r => r.chunkIndex) = List.range' idx0 texts.length ∧
      (noEmbedRows hash supply now uid iid item pt ps pe cts cte idx0 texts).map
          (fun r => r.text) = texts := by
  intro texts
  induction texts with
  | nil => intro idx0; simp [noEmbedRows]
  | cons t ts ih =>
    intro idx0
    rw [noEmbedRows]
    constructor
    · simp only [List.map_cons, List.length_cons, List.range'_succ]
      rw [(ih (idx0 + 1)).1]
    · simp only [List.map_cons]
      rw [(ih (idx0 + 1)).2]

/-- C7: chunk insertion is idempotent under the `(item_id, chunk_index)` key:
re-running `_insert_chunks_no_embed` for the same item and texts (even with
fresh uuids and timestamps) is a no-op; starting from a store with at most one
chunk per key, each index `0 ≤ idx < len(texts)` ends with exactly one stored
chunk and no key is ever duplicated; and on a store with no chunks of the item
the run appends rows whose indices are `0, 1, ...` in input order. -/
theorem C7_chunk_insert_idempotent (hash hash2 : List Char → Nat)
    (supply supply2 : Nat → Nat) (now now2 : ℚ) (db : List ChunkRow)
    (uid iid : Nat) (item item2 : ItemAttrs) (texts : List (List Char))
    (pt ps pe : List Char) (cts cte : Option ℚ) :
    (insertChunksNoEmbed hash2 supply2 now2
        (insertChunksNoEmbed hash supply now db uid iid item texts pt ps pe cts cte)
        uid iid item2 texts pt ps pe cts cte =
      insertChunksNoEmbed hash supply now db uid iid item texts pt ps pe cts cte) ∧
    ((∀ j k, keyCount db j k ≤ 1) →
      (∀ j k, keyCount
          (insertChunksNoEmbed hash supply now db uid iid item texts pt ps pe cts cte)
          j k ≤ 1) ∧
      (∀ idx, idx < texts.length →
        keyCount
          (insertChunksNoEmbed hash supply now db uid iid item texts pt ps pe cts cte)
          iid idx = 1)) ∧
    ((∀ r ∈ db, r.itemId ≠ iid) →
      insertChunksNoEmbed hash supply now db uid iid item texts pt ps pe cts cte =
        db ++ noEmbedRows hash supply now uid iid item pt ps pe cts cte 0 texts) ∧
    ((noEmbedRows hash supply now uid iid item pt ps pe cts cte 0 texts).map
        (fun r => r.chunkIndex) = List.range texts.length ∧
      (noEmbedRows hash supply now uid iid item pt ps pe cts cte 0 texts).map
        (fun r => r.text) = texts) := by
  refine ⟨?_, ?_, ?_, ?_⟩
  · unfold insertChunksNoEmbed
    cases htexts : texts.isEmpty with
    | true => simp
    | false =>
      simp only [htexts, Bool.false_eq_true, if_false]
      apply insertRows_noop
      intro r hr
      obtain ⟨h1, h2, h3, _⟩ :=
        mem_noEmbedRows hash2 supply2 now2 uid iid item2 pt ps pe cts cte texts 0 r hr
      obtain ⟨r1, hr1, hr1i, hr1j⟩ :=
        key_mem_noEmbedRows hash supply now uid iid item pt ps pe cts cte texts 0
          r.chunkIndex (by omega) (by omega)
      have := keyPresent_after_insertRows _ db r1 hr1
      rw [hr1i, hr1j] at this
      rw [h1]
      exact this
  · intro hinit
    constructor
    · intro j k
      unfold insertChunksNoEmbed
      cases htexts : texts.isEmpty with
      | true => simp; exact hinit j k
      | false =>
        simp only [htexts, Bool.false_eq_true, if_false]
        exact keyCount_insertRows_le _ db j k (hinit j k)
    · intro idx hidx
      have htexts : texts.isEmpty = false := by
        cases texts with
        | nil => simp at hidx
        | cons a b => rfl
      unfold insertChunksNoEmbed
      simp only [htexts, Bool.false_eq_true, if_false]
      have hle : keyCount
          (insertRows db (noEmbedRows hash supply now uid iid item pt ps pe cts cte 0 texts))
          iid idx ≤ 1 := keyCount_insertRows_le _ db iid idx (hinit iid idx)
      obtain ⟨r1, hr1, hr1i, hr1j⟩ :=
        key_mem_noEmbedRows hash supply now uid iid item pt ps pe cts cte texts 0 idx
          (by omega) (by omega)
      have hpres := keyPresent_after_insertRows _ db r1 hr1
      rw [hr1i, hr1j] at hpres
      have hge := keyCount_pos_of_present _ iid idx hpres
      omega
  · intro hfresh
    unfold insertChunksNoEmbed
    cases htexts : texts.isEmpty with
    | true =>
      have : texts = [] := by
        cases texts with
        | nil => rfl
        | cons a b => simp at htexts
      subst this
      simp [noEmbedRows]
    | false =>
      simp only [htexts, Bool.false_eq_true, if_false]
      exact insertRows_all_new hash supply now uid iid item pt ps pe cts cte texts 0 db
        (fun r hr => Or.inl (hfresh r hr))
  · have h := noEmbedRows_chunkIndex hash supply now uid iid item pt ps pe cts cte texts 0
    rw [List.range_eq_range']
    exact h

/-- C7 witness: writing the two texts `"x"`, `"y"` for item 5 twice on an
empty store is a no-op the second time and leaves exactly one chunk at each
of the indices 0 and 1. -/
theorem C7_chunk_insert_idempotent_witness :
    (insertChunksNoEmbed hash0 supply0 1
        (insertChunksNoEmbed hash0 supply0 0 [] 1 5 item0 [['x'], ['y']] [] [] [] none none)
        1 5 item0 [['x'], ['y']] [] [] [] none none =
      insertChunksNoEmbed hash0 supply0 0 [] 1 5 item0 [['x'], ['y']] [] [] [] none none) ∧
    keyCount (insertChunksNoEmbed hash0 supply0 0 [] 1 5 item0 [['x'], ['y']] [] [] []
      none none) 5 0 = 1 ∧
    keyCount (insertChunksNoEmbed hash0 supply0 0 [] 1 5 item0 [['x'], ['y']] [] [] []
      none none) 5 1 = 1 := by
  have h := C7_chunk_insert_idempotent hash0 hash0 supply0 supply0 0 1 [] 1 5 item0 item0
    [['x'], ['y']] [] [] [] none none
  have h2 := h.2.1 (by intro j k; simp [keyCount])
  exact ⟨h.1, h2.2 0 (by decide), h2.2 1 (by decide)⟩

theorem resplit_pieces (mc ov : Nat) (c : List Char) :
    ∀ fuel i out, resplit mc ov fuel i c = some out →
      ∀ p ∈ out, p.length ≤ mc ∧ pyStrip p = p := by
  intro fuel
  induction fuel with
  | zero => intro i out h; cases h
  | succ n ih =>
    intro i out h
    rw [resplit] at h
    by_cases hi : i < c.length
    · rw [if_pos hi] at h
      cases hrec : resplit mc ov n (min c.length (i + mc) - ov) c with
      | none => rw [hrec] at h; cases h
      | some rest =>
        rw [hrec] at h
        injection h with h
        subst h
        intro p hp
        rcases List.mem_cons.mp hp with rfl | hprest
        · constructor
          · calc (pyStrip ((c.drop i).take (min c.length (i + mc) - i))).length
                ≤ ((c.drop i).take (min c.length (i + mc) - i)).length :=
                  length_pyStrip_le _
              _ ≤ min c.length (i + mc) - i := by
                  rw [List.length_take]
                  exact min_le_left _ _
              _ ≤ mc := by
                  have := min_le_right c.length (i + mc)
                  omega
          · exact pyStrip_idem _
        · exact ih _ _ hrec p hprest
    · rw [if_neg hi] at h
      injection h with h
      subst h
      intro p hp
      cases hp

theorem enforce_bound (mc ov fuel : Nat) :
    ∀ (cs : List (List Char)) (out : List (List Char)),
      enforce mc ov fuel cs = some out → ∀ x ∈ out, x.length ≤ mc := by
  intro cs
  induction cs with
  | nil =>
    intro out h x hx
    injection h with h
    subst h
    cases hx
  | cons c t ih =>
    intro out h x hx
    rw [enforce] at h
    by_cases hcl : c.length ≤ mc
    · rw [if_pos hcl] at h
      cases hrec : enforce mc ov fuel t with
      | none => rw [hrec] at h; cases h
      | some rest =>
        rw [hrec] at h
        injection h with h
        subst h
        rcases List.mem_cons.mp hx with rfl | hxr
        · exact hcl
        · exact ih rest hrec x hxr
    · rw [if_neg hcl] at h
      cases hres : resplit mc ov fuel 0 c with
      | none => rw [hres] at h; cases h
      | some pieces =>
        rw [hres] at h
        cases hrec : enforce mc ov fuel t with
        | none => rw [hrec] at h; cases h
        | some rest =>
          rw [hrec] at h
          injection h with h
          subst h
          rcases List.mem_append.mp hx with hxp | hxr
          · exact (resplit_pieces mc ov c fuel 0 pieces hres x hxp).1
          · exact ih rest hrec x hxr

/-- C5: whenever `chunk_text` returns, every returned chunk has length at most
`max_chars`, is its own whitespace-trim (so it is non-empty after trimming),
and is non-empty; and on empty or all-whitespace input the result is the empty
sequence. (The bounds hold for every `overlap`, in particular any
`overlap < max_chars`.) -/
theorem C5_chunk_bounds (text : List Char) (mc ov fuel : Nat) :
    (∀ out, chunkText fuel text mc ov = some out →
      ∀ c ∈ out, c.length ≤ mc ∧ pyStrip c = c ∧ c ≠ []) ∧
    (pyStrip text = [] → chunkText fuel text mc ov = some []) := by
  constructor
  · intro out hout c hc
    rw [chunkText] at hout
    by_cases hemp : (pyStrip text).isEmpty
    · rw [if_pos hemp] at hout
      injection hout with hout
      subst hout
      cases hc
    · rw [if_neg hemp] at hout
      cases henf : enforce mc ov fuel (packLoop mc (parasOf (pyStrip text)) [] []) with
      | none => rw [henf] at hout; cases hout
      | some final =>
        rw [henf] at hout
        injection hout with hout
        subst hout
        have hc' := List.mem_filter.mp hc
        obtain ⟨x, hx, hxc⟩ := List.mem_map.mp hc'.1
        have hne : c ≠ [] := by
          intro hnil
          rw [hnil] at hc'
          simp at hc'
        refine ⟨?_, ?_, hne⟩
        · rw [← hxc]
          exact le_trans (length_pyStrip_le x) (enforce_bound mc ov fuel _ final henf x hx)
        · rw [← hxc]
          exact pyStrip_idem x
  · intro h
    rw [chunkText, if_pos (by rw [h]; rfl)]

/-- C5 witness: on the two-character text `"hi"` with `max_chars = 10`,
`overlap = 2` the single returned chunk is short, trimmed and non-empty, and
an all-whitespace input returns the empty sequence. -/
theorem C5_chunk_bounds_witness :
    (['h', 'i'].length ≤ 10 ∧ pyStrip ['h', 'i'] = ['h', 'i'] ∧ ['h', 'i'] ≠ []) ∧
    chunkText 5 [' '] 10 2 = some [] := by
  constructor
  · exact (C5_chunk_bounds ['h', 'i'] 10 2 5).1 [['h', 'i']] (by decide) ['h', 'i']
      (by decide)
  · exact (C5_chunk_bounds [' '] 10 2 5).2 (by decide)

theorem insertDescBy_perm {α β : Type} [LinearOrder β] (key : α → β) (x : α) :
    ∀ l : List α, (insertDescBy key x l).Perm (x :: l) := by
  intro l
  induction l with
  | nil => exact List.Perm.refl _
  | cons y ys ih =>
    rw [insertDescBy]
    split
    · exact List.Perm.refl _
    · exact (List.Perm.cons y ih).trans (List.Perm.swap x y ys)

theorem sortDescBy_perm {α β : Type} [LinearOrder β] (key : α → β) :
    ∀ l : List α, (sortDescBy key l).Perm l := by
  intro l
  induction l with
  | nil => exact List.Perm.refl _
  | cons x xs ih =>
    rw [sortDescBy]
    exact (insertDescBy_perm key x (sortDescBy key xs)).trans (List.Perm.cons x ih)

theorem insertAscBy_perm {α β : Type} [LinearOrder β] (key : α → β) (x : α) :
    ∀ l : List α, (insertAscBy key x l).Perm (x :: l) := by
  intro l
  induction l with
  | nil => exact List.Perm.refl _
  | cons y ys ih =>
    rw [insertAscBy]
    split
    · exact List.Perm.refl _
    · exact (List.Perm.cons y ih).trans (List.Perm.swap x y ys)

theorem sortAscBy_perm {α β : Type} [LinearOrder β] (key : α → β) :
    ∀ l : List α, (sortAscBy key l).Perm l := by
  intro l
  induction l with
  | nil => exact List.Perm.refl _
  | cons x xs ih =>
    rw [sortAscBy]
    exact (insertAscBy_perm key x (sortAscBy key xs)).trans (List.Perm.cons x ih)

theorem sortDescBy_const_key {α β : Type} [LinearOrder β] (key : α → β) (c : β) :
    ∀ l : List α, (∀ x ∈ l, key x = c) → sortDescBy key l = l := by
  intro l
  induction l with
  | nil => intro _; rfl
  | cons x xs ih =>
    intro h
    rw [sortDescBy, ih (fun y hy => h y (List.mem_cons_of_mem x hy))]
    cases xs with
    | nil => rfl
    | cons y ys =>
      rw [insertDescBy, if_pos]
      rw [h y (by simp), h x (by simp)]

theorem foldl_min_le {α : Type} [LinearOrder α] (vs : List α) :
    ∀ a : α, vs.foldl min a ≤ a := by
  induction vs with
  | nil => intro a; exact le_refl a
  | cons v t ih =>
    intro a
    calc List.foldl min (min a v) t ≤ min a v := ih (min a v)
      _ ≤ a := min_le_left _ _

theorem foldl_min_le_mem {α : Type} [LinearOrder α] (vs : List α) :
    ∀ (a x : α), x ∈ vs → vs.foldl min a ≤ x := by
  induction vs with
  | nil => intro a x hx; cases hx
  | cons v t ih =>
    intro a x hx
    rcases List.mem_cons.mp hx with rfl | hxt
    · calc List.foldl min (min a x) t ≤ min a x := foldl_min_le t _
        _ ≤ x := min_le_right _ _
    · exact ih (min a v) x hxt

theorem le_foldl_max {α : Type} [LinearOrder α] (vs : List α) :
    ∀ a : α, a ≤ vs.foldl max a := by
  induction vs with
  | nil => intro a; exact le_refl a
  | cons v t ih =>
    intro a
    calc a ≤ max a v := le_max_left _ _
      _ ≤ List.foldl max (max a v) t := ih (max a v)

theorem mem_le_foldl_max {α : Type} [LinearOrder α] (vs : List α) :
    ∀ (a x : α), x ∈ vs → x ≤ vs.foldl max a := by
  induction vs with
  | nil => intro a x hx; cases hx
  | cons v t ih =>
    intro a x hx
    rcases List.mem_cons.mp hx with rfl | hxt
    · calc x ≤ max a x := le_max_right _ _
        _ ≤ List.foldl max (max a x) t := le_foldl_max t _
    · exact ih (max a v) x hxt

theorem norm_mem_bounds (vals : List ℚ) : ∀ x ∈ norm vals, 0 ≤ x ∧ x ≤ 1 := by
  cases vals with
  | nil => intro x hx; cases hx
  | cons v vs =>
    intro x hx
    rw [norm] at hx
    split at hx
    · obtain ⟨y, _, hyx⟩ := List.mem_map.mp hx
      rw [← hyx]
      norm_num
    · rename_i hrange
      obtain ⟨y, hy, hyx⟩ := List.mem_map.mp hx
      have hpos : 0 < vs.foldl max v - vs.foldl min v := by
        have : (1 : ℚ) / 1000000000000 ≤ vs.foldl max v - vs.foldl min v := le_of_not_lt hrange
        linarith
      have hmn : vs.foldl min v ≤ y := by
        rcases List.mem_cons.mp hy with rfl | hyv
        · exact foldl_min_le vs y
        · exact foldl_min_le_mem vs v y hyv
      have hmx : y ≤ vs.foldl max v := by
        rcases List.mem_cons.mp hy with rfl | hyv
        · exact le_foldl_max vs y
        · exact mem_le_foldl_max vs v y hyv
      constructor
      · rw [← hyx]
        exact div_nonneg (by linarith) (le_of_lt hpos)
      · rw [← hyx]
        rw [div_le_one hpos]
        linarith

theorem norm_length (vals : List ℚ) : (norm vals).length = vals.length := by
  cases vals with
  | nil => rfl
  | cons v vs =>
    rw [norm]
    split <;> rw [List.length_map]

theorem foldl_min_map_zero {α : Type} (l : List α) :
    (l.map (fun _ => (0 : ℚ))).foldl min 0 = 0 := by
  induction l with
  | nil => rfl
  | cons a t ih => simpa using ih

theorem foldl_max_map_zero {α : Type} (l : List α) :
    (l.map (fun _ => (0 : ℚ))).foldl max 0 = 0 := by
  induction l with
  | nil => rfl
  | cons a t ih => simpa using ih

theorem norm_map_const_zero {α : Type} (l : List α) :
    norm (l.map (fun _ => (0 : ℚ))) = l.map (fun _ => (1 : ℚ)) := by
  cases l with
  | nil => rfl
  | cons a t =>
    rw [List.map_cons, norm]
    rw [if_pos]
    · simp [List.map_map, Function.comp]
    · rw [foldl_min_map_zero, foldl_max_map_zero]
      norm_num

theorem mem_firstKeysAux (l : List Nat) :
    ∀ (seen : List Nat) (x : Nat), x ∈ firstKeysAux l seen ↔ (x ∈ l ∧ x ∉ seen) := by
  induction l with
  | nil => intro seen x; simp [firstKeysAux]
  | cons a t ih =>
    intro seen x
    rw [firstKeysAux]
    by_cases ha : a ∈ seen
    · rw [if_pos ha, ih seen x]
      constructor
      · rintro ⟨hx, hs⟩
        exact ⟨List.mem_cons_of_mem a hx, hs⟩
      · rintro ⟨hx, hs⟩
        rcases List.mem_cons.mp hx with rfl | hxt
        · exact absurd ha hs
        · exact ⟨hxt, hs⟩
    · rw [if_neg ha]
      by_cases hxa : x = a
      · subst hxa
        simp [ha]
      · constructor
        · intro hx
          rcases List.mem_cons.mp hx with rfl | hxt
          · exact absurd rfl hxa
          · obtain ⟨h1, h2⟩ := (ih (a :: seen) x).mp hxt
            exact ⟨List.mem_cons_of_mem a h1,
              fun hs => h2 (List.mem_cons_of_mem a hs)⟩
        · rintro ⟨hx, hs⟩
          rcases List.mem_cons.mp hx with rfl | hxt
          · exact absurd rfl hxa
          · exact List.mem_cons_of_mem a ((ih (a :: seen) x).mpr
              ⟨hxt, fun hmem => by
                rcases List.mem_cons.mp hmem with h | h
                · exact hxa h
                · exact hs h⟩)

theorem mem_firstKeys (l : List Nat) (x : Nat) : x ∈ firstKeys l ↔ x ∈ l := by
  rw [firstKeys, mem_firstKeysAux]
  simp

theorem firstKeysAux_of_nodup (l : List Nat) :
    ∀ seen : List Nat, l.Nodup → (∀ x ∈ l, x ∉ seen) → firstKeysAux l seen = l := by
  induction l with
  | nil => intro seen _ _; rfl
  | cons a t ih =>
    intro seen hnd hdisj
    rw [firstKeysAux, if_neg (hdisj a (List.mem_cons_self a t))]
    rw [ih (a :: seen) (List.Nodup.of_cons hnd) ?_]
    intro x hx hmem
    rcases List.mem_cons.mp hmem with rfl | hseen
    · exact (List.nodup_cons.mp hnd).1 hx
    · exact hdisj x (List.mem_cons_of_mem a hx) hseen

theorem firstKeys_of_nodup (l : List Nat) (h : l.Nodup) : firstKeys l = l :=
  firstKeysAux_of_nodup l [] h (fun x _ hx => by cases hx)

theorem maxMatch_nomatch (cid : Nat) (l : List (ChunkRow × ℚ))
    (h : ∀ p ∈ l, p.1.chunkId ≠ cid) : ∀ acc, maxMatch cid l acc = acc := by
  induction l with
  | nil => intro acc; rfl
  | cons p t ih =>
    intro acc
    obtain ⟨r, s⟩ := p
    rw [maxMatch, if_neg (h (r, s) (List.mem_cons_self _ _))]
    exact ih (fun q hq => h q (List.mem_cons_of_mem _ hq)) acc

theorem maxMatch_bounds (cid : Nat) (l : List (ChunkRow × ℚ))
    (h : ∀ p ∈ l, 0 ≤ p.2 ∧ p.2 ≤ 1) :
    ∀ acc, 0 ≤ acc → acc ≤ 1 → 0 ≤ maxMatch cid l acc ∧ maxMatch cid l acc ≤ 1 := by
  induction l with
  | nil => intro acc h0 h1; exact ⟨h0, h1⟩
  | cons p t ih =>
    intro acc h0 h1
    obtain ⟨r, s⟩ := p
    rw [maxMatch]
    have hs := h (r, s) (List.mem_cons_self _ _)
    have ihs := ih (fun q hq => h q (List.mem_cons_of_mem _ hq))
    split
    · exact ihs (max acc s) (le_max_of_le_left h0) (max_le h1 hs.2)
    · exact ihs acc h0 h1

theorem maxMatch_one (cid : Nat) (l : List (ChunkRow × ℚ))
    (h : ∀ p ∈ l, p.2 = 1) : maxMatch cid l 1 = 1 := by
  induction l with
  | nil => rfl
  | cons p t ih =>
    obtain ⟨r, s⟩ := p
    rw [maxMatch]
    have hs : s = 1 := h (r, s) (List.mem_cons_self _ _)
    have iht := ih (fun q hq => h q (List.mem_cons_of_mem _ hq))
    split
    · rw [hs, max_self]
      exact iht
    · exact iht

theorem maxMatch_exists_one (cid : Nat) (l : List (ChunkRow × ℚ))
    (h : ∀ p ∈ l, p.2 = 1) (hex : ∃ p ∈ l, p.1.chunkId = cid) :
    maxMatch cid l 0 = 1 := by
  induction l with
  | nil => obtain ⟨p, hp, _⟩ := hex; cases hp
  | cons p t ih =>
    obtain ⟨r, s⟩ := p
    rw [maxMatch]
    have hs : s = 1 := h (r, s) (List.mem_cons_self _ _)
    by_cases hm : r.chunkId = cid
    · rw [if_pos hm, hs]
      rw [max_eq_right (by norm_num : (0:ℚ) ≤ 1)]
      exact maxMatch_one cid t (fun q hq => h q (List.mem_cons_of_mem _ hq))
    · rw [if_neg hm]
      apply ih (fun q hq => h q (List.mem_cons_of_mem _ hq))
      obtain ⟨q, hq, hqid⟩ := hex
      rcases List.mem_cons.mp hq with rfl | hqt
      · exact absurd hqid hm
      · exact ⟨q, hqt, hqid⟩

theorem maxMatch_eq_find (cid : Nat) :
    ∀ (rs : List ChunkRow) (ns : List ℚ), (rs.map ChunkRow.chunkId).Nodup →
      (∀ x ∈ ns, 0 ≤ x) →
      maxMatch cid (rs.zip ns) 0 =
        (match (rs.zip ns).find? (fun p => p.1.chunkId == cid) with
         | some p => p.2
         | none => 0) := by
  intro rs
  induction rs with
  | nil => intro ns _ _; rfl
  | cons r rt ih =>
    intro ns hnd hns
    cases ns with
    | nil => rfl
    | cons n nt =>
      rw [List.zip_cons_cons]
      by_cases hm : r.chunkId = cid
      · have hfind : List.find? (fun p => p.1.chunkId == cid) ((r, n) :: rt.zip nt) =
            some (r, n) := by
          simp [List.find?_cons, hm]
        rw [hfind]
        rw [maxMatch, if_pos hm]
        have hnomatch : ∀ p ∈ rt.zip nt, p.1.chunkId ≠ cid := by
          intro p hp hpid
          obtain ⟨a, b⟩ := p
          have ha : a ∈ rt := (List.of_mem_zip hp).1
          have : r.chunkId ∉ rt.map ChunkRow.chunkId := (List.nodup_cons.mp
            (by simpa using hnd)).1
          apply this
          rw [hm, ← hpid]
          exact List.mem_map_of_mem ChunkRow.chunkId ha
        rw [maxMatch_nomatch cid _ hnomatch]
        exact max_eq_right (hns n (List.mem_cons_self _ _))
      · have hfind : List.find? (fun p => p.1.chunkId == cid) ((r, n) :: rt.zip nt) =
            List.find? (fun p => p.1.chunkId == cid) (rt.zip nt) := by
          simp [List.find?_cons, hm]
        rw [hfind]
        rw [maxMatch, if_neg hm]
        exact ih nt (List.Nodup.of_cons (by simpa using hnd))
          (fun x hx => hns x (List.mem_cons_of_mem _ hx))

theorem signalVal_eq_normedSignal (rows : List (ChunkRow × ℚ)) (cid : Nat)
    (hnd : (candIds rows).Nodup) :
    signalVal rows (norm (rows.map Prod.snd)) cid = normedSignal rows cid := by
  have hnd' : ((rows.map Prod.fst).map ChunkRow.chunkId).Nodup := by
    rw [List.map_map]
    exact hnd
  exact maxMatch_eq_find cid (rows.map Prod.fst) (norm (rows.map Prod.snd)) hnd'
    (fun x hx => (norm_mem_bounds _ x hx).1)

theorem normedSignal_not_mem (rows : List (ChunkRow × ℚ)) (cid : Nat)
    (h : cid ∉ candIds rows) : normedSignal rows cid = 0 := by
  rw [normedSignal]
  have hfind : ((rows.map Prod.fst).zip (norm (rows.map Prod.snd))).find?
      (fun p => p.1.chunkId == cid) = none := by
    rw [List.find?_eq_none]
    intro p hp
    obtain ⟨a, b⟩ := p
    have ha : a ∈ rows.map Prod.fst := (List.of_mem_zip hp).1
    obtain ⟨q, hq, hqa⟩ := List.mem_map.mp ha
    simp only [beq_iff_eq]
    intro hid
    apply h
    rw [candIds]
    have hqid : q.1.chunkId = cid := by rw [hqa]; exact hid
    rw [← hqid]
    exact List.mem_map_of_mem (fun p => p.1.chunkId) hq
  rw [hfind]

theorem normedSignal_bounds (rows : List (ChunkRow × ℚ)) (cid : Nat) :
    0 ≤ normedSignal rows cid ∧ normedSignal rows cid ≤ 1 := by
  rw [normedSignal]
  cases hfind : ((rows.map Prod.fst).zip (norm (rows.map Prod.snd))).find?
      (fun p => p.1.chunkId == cid) with
  | none => norm_num
  | some p =>
    obtain ⟨a, b⟩ := p
    have hp := List.mem_of_find?_eq_some hfind
    have hb : b ∈ norm (rows.map Prod.snd) := (List.of_mem_zip hp).2
    exact norm_mem_bounds _ b hb

theorem find?_isSome_of_mem {α : Type} (p : α → Bool) (l : List α) (a : α)
    (ha : a ∈ l) (hpa : p a = true) : ∃ b, l.find? p = some b := by
  induction l with
  | nil => cases ha
  | cons c t ih =>
    by_cases hc : p c = true
    · exact ⟨c, by simp [List.find?_cons, hc]⟩
    · rcases List.mem_cons.mp ha with rfl | hat
      · exact absurd hpa hc
      · obtain ⟨b, hb⟩ := ih hat
        refine ⟨b, ?_⟩
        simp only [List.find?_cons]
        rw [Bool.eq_false_iff.mpr hc] at *
        simpa [hc] using hb

theorem mem_fusedScored (v kw : List (ChunkRow × ℚ)) (s : Scored)
    (hs : s ∈ fusedScored v kw) :
    s.row.chunkId ∈ candIds v ++ candIds kw ∧
    s.score = (0.6 : ℚ) * signalVal v (norm (v.map Prod.snd)) s.row.chunkId +
      (0.4 : ℚ) * signalVal kw (norm (kw.map Prod.snd)) s.row.chunkId := by
  rw [fusedScored] at hs
  obtain ⟨cid, hcid, heq⟩ := List.mem_filterMap.mp hs
  cases hfind : ((v ++ kw).map Prod.fst).find? (fun r => r.chunkId == cid) with
  | none => rw [hfind] at heq; cases heq
  | some r =>
    rw [hfind] at heq
    have hrid : r.chunkId = cid := by
      have := List.find?_some hfind
      simpa using this
    injection heq with heq
    have hrow : s.row.chunkId = cid := by rw [← heq]; exact hrid
    constructor
    · rw [hrow]
      exact (mem_firstKeys _ cid).mp hcid
    · have hscore : s.score = (0.6 : ℚ) * signalVal v (norm (v.map Prod.snd)) cid +
          (0.4 : ℚ) * signalVal kw (norm (kw.map Prod.snd)) cid := by
        rw [← heq]
      rw [hscore, hrow]

theorem fusedScored_exists (v kw : List (ChunkRow × ℚ)) (cid : Nat)
    (hmem : cid ∈ candIds v ++ candIds kw) :
    ∃ s ∈ fusedScored v kw, s.row.chunkId = cid ∧
      s.score = (0.6 : ℚ) * signalVal v (norm (v.map Prod.snd)) cid +
        (0.4 : ℚ) * signalVal kw (norm (kw.map Prod.snd)) cid := by
  have hrow : ∃ q ∈ (v ++ kw), q.1.chunkId = cid := by
    rcases List.mem_append.mp hmem with hv | hk
    · obtain ⟨q, hq, hqid⟩ := List.mem_map.mp hv
      exact ⟨q, List.mem_append_left _ hq, hqid⟩
    · obtain ⟨q, hq, hqid⟩ := List.mem_map.mp hk
      exact ⟨q, List.mem_append_right _ hq, hqid⟩
  obtain ⟨q, hq, hqid⟩ := hrow
  obtain ⟨r, hfind⟩ := find?_isSome_of_mem (fun r => r.chunkId == cid)
    ((v ++ kw).map Prod.fst) q.1 (List.mem_map_of_mem Prod.fst hq) (by simp [hqid])
  have hrid : r.chunkId = cid := by
    have := List.find?_some hfind
    simpa using this
  refine ⟨⟨(0.6 : ℚ) * signalVal v (norm (v.map Prod.snd)) cid +
      (0.4 : ℚ) * signalVal kw (norm (kw.map Prod.snd)) cid, r⟩, ?_, hrid, rfl⟩
  rw [fusedScored]
  apply List.mem_filterMap.mpr
  refine ⟨cid, (mem_firstKeys _ cid).mpr hmem, ?_⟩
  rw [hfind]
  rfl

/-- C3: for every candidate chunk present in at least one signal's candidate
set (with the query results containing each chunk at most once, as SQL rows on
the chunk primary key do), the fused `scored` list contains an entry for the
chunk whose score is exactly `0.6 * semantic + 0.4 * lexical` of the
min-max-normalized signal values, where a signal whose candidate set does not
contain the chunk contributes `0`; this score always lies in `[0, 1]`. -/
theorem C3_fused_score (v kw : List (ChunkRow × ℚ))
    (hv : (candIds v).Nodup) (hk : (candIds kw).Nodup) (cid : Nat)
    (hmem : cid ∈ candIds v ∨ cid ∈ candIds kw) :
    ∃ s ∈ fusedScored v kw, s.row.chunkId = cid ∧
      s.score = (0.6 : ℚ) * normedSignal v cid + (0.4 : ℚ) * normedSignal kw cid ∧
      (cid ∉ candIds v → normedSignal v cid = 0) ∧
      (cid ∉ candIds kw → normedSignal kw cid = 0) ∧
      0 ≤ s.score ∧ s.score ≤ 1 := by
  obtain ⟨s, hsmem, hsid, hscore⟩ := fusedScored_exists v kw cid
    (List.mem_append.mpr hmem)
  rw [signalVal_eq_normedSignal v cid hv, signalVal_eq_normedSignal kw cid hk] at hscore
  obtain ⟨hv0, hv1⟩ := normedSignal_bounds v cid
  obtain ⟨hk0, hk1⟩ := normedSignal_bounds kw cid
  refine ⟨s, hsmem, hsid, hscore, normedSignal_not_mem v cid, normedSignal_not_mem kw cid,
    ?_, ?_⟩
  · rw [hscore]; nlinarith
  · rw [hscore]; nlinarith

/-- C3 witness: with one keyword candidate and no vector candidate the fused
entry scores exactly `0.4 * 1`. -/
theorem C3_fused_score_witness :
    ∃ s ∈ fusedScored [] [(rowA, (5 : ℚ))], s.row.chunkId = 21 ∧
      s.score = (0.6 : ℚ) * normedSignal [] 21 + (0.4 : ℚ) * normedSignal [(rowA, 5)] 21 ∧
      (21 ∉ candIds [] → normedSignal ([] : List (ChunkRow × ℚ)) 21 = 0) ∧
      (21 ∉ candIds [(rowA, (5 : ℚ))] → normedSignal [(rowA, 5)] 21 = 0) ∧
      0 ≤ s.score ∧ s.score ≤ 1 :=
  C3_fused_score [] [(rowA, 5)] (by decide) (by decide) 21 (by right; decide)

theorem walkAux_eq_cap3 (topk : Nat) :
    ∀ (l : List Scored) (cnt : Nat → Nat) (ev : List Evidence),
      ev.length < topk →
      walkAux topk l cnt ev =
        ev ++ ((cap3Filter l cnt).take (topk - ev.length)).map mkEv := by
  intro l
  induction l with
  | nil => intro cnt ev _; simp [walkAux, cap3Filter]
  | cons s rest ih =>
    intro cnt ev hev
    by_cases hskip : cnt s.row.itemId + 1 > 3
    · rw [walkAux, if_pos hskip, cap3Filter, if_pos hskip]
      exact ih _ _ hev
    · rw [walkAux, if_neg hskip, cap3Filter, if_neg hskip]
      by_cases hbreak : topk ≤ (ev ++ [mkEv s]).length
      · rw [if_pos hbreak]
        have h1 : topk - ev.length = 1 := by
          rw [List.length_append] at hbreak
          simp at hbreak
          omega
        rw [h1]
        simp
      · rw [if_neg hbreak]
        have hlen : (ev ++ [mkEv s]).length < topk := by
          rw [List.length_append] at hbreak ⊢
          simp at hbreak ⊢
          omega
        rw [ih _ _ hlen]
        have h2 : topk - ev.length = (topk - (ev ++ [mkEv s]).length) + 1 := by
          rw [List.length_append]
          simp
          omega
        rw [h2, List.take_succ_cons]
        simp

theorem bump_eval (cnt : Nat → Nat) (i j : Nat) :
    bump cnt i j = if j = i then cnt j + 1 else cnt j := rfl

theorem cap3Filter_count (j : Nat) :
    ∀ (l : List Scored) (cnt : Nat → Nat),
      itemCountS (cap3Filter l cnt) j ≤ 3 - cnt j := by
  intro l
  induction l with
  | nil => intro cnt; simp [cap3Filter, itemCountS]
  | cons s rest ih =>
    intro cnt
    by_cases hj : s.row.itemId = j
    · have hbump : bump cnt s.row.itemId j = cnt j + 1 := by
        rw [bump_eval, if_pos hj.symm]
      by_cases hskip : cnt s.row.itemId + 1 > 3
      · rw [cap3Filter, if_pos hskip]
        have := ih (bump cnt s.row.itemId)
        rw [hbump] at this
        omega
      · rw [cap3Filter, if_neg hskip]
        have hcons : List.countP (fun s => s.row.itemId == j)
            (s :: cap3Filter rest (bump cnt s.row.itemId)) =
            List.countP (fun s => s.row.itemId == j)
              (cap3Filter rest (bump cnt s.row.itemId)) + 1 := by
          simp [List.countP_cons, hj]
        rw [itemCountS, hcons]
        have := ih (bump cnt s.row.itemId)
        rw [hbump] at this
        rw [itemCountS] at this
        rw [hj] at hskip
        omega
    · have hbump : bump cnt s.row.itemId j = cnt j := by
        rw [bump_eval, if_neg (fun h => hj h.symm)]
      by_cases hskip : cnt s.row.itemId + 1 > 3
      · rw [cap3Filter, if_pos hskip]
        have := ih (bump cnt s.row.itemId)
        rw [hbump] at this
        exact this
      · rw [cap3Filter, if_neg hskip]
        have hcons : List.countP (fun s => s.row.itemId == j)
            (s :: cap3Filter rest (bump cnt s.row.itemId)) =
            List.countP (fun s => s.row.itemId == j)
              (cap3Filter rest (bump cnt s.row.itemId)) := by
          simp [List.countP_cons, hj]
        rw [itemCountS, hcons]
        have := ih (bump cnt s.row.itemId)
        rw [hbump] at this
        rw [itemCountS] at this
        exact this

/-- C4: for every store and candidate distribution (and positive `top_k`), the
evidence list of `hybrid_retrieve` is exactly the `top_k`-prefix of the
cap-filtered sorted candidates — so a candidate skipped by the cap is simply
excluded and the walk continues — and consequently it contains at most 3
entries of any one source item and at most `top_k` entries in total. -/
theorem C4_diversity_cap (db : List ChunkRow) (uid : Nat) (qEmb : Option (List ℚ))
    (dist : List ℚ → ℚ) (fts : ChunkRow → Bool) (rank : ChunkRow → ℚ)
    (iid : Option Nat) (ts te : Option ℚ) (topk : Nat) (htop : 0 < topk) :
    hybridRetrieve db uid qEmb dist fts rank iid ts te topk =
      ((cap3Filter (scoredOf db uid qEmb dist fts rank iid ts te topk)
          (fun _ => 0)).take topk).map mkEv ∧
    (∀ j, (hybridRetrieve db uid qEmb dist fts rank iid ts te topk).countP
        (fun e => e.itemId == j) ≤ 3) ∧
    (hybridRetrieve db uid qEmb dist fts rank iid ts te topk).length ≤ topk := by
  have heq : hybridRetrieve db uid qEmb dist fts rank iid ts te topk =
      ((cap3Filter (scoredOf db uid qEmb dist fts rank iid ts te topk)
          (fun _ => 0)).take topk).map mkEv := by
    rw [hybridRetrieve, walkAux_eq_cap3 topk _ _ [] (by simpa using htop)]
    simp
  refine ⟨heq, ?_, ?_⟩
  · intro j
    rw [heq]
    have h1 : (((cap3Filter (scoredOf db uid qEmb dist fts rank iid ts te topk)
        (fun _ => 0)).take topk).map mkEv).countP (fun e => e.itemId == j) =
        ((cap3Filter (scoredOf db uid qEmb dist fts rank iid ts te topk)
          (fun _ => 0)).take topk).countP (fun s => s.row.itemId == j) := by
      rw [List.countP_map]
      rfl
    rw [h1]
    have h2 := List.Sublist.countP_le (fun s => s.row.itemId == j)
      (List.take_sublist topk
        (cap3Filter (scoredOf db uid qEmb dist fts rank iid ts te topk) (fun _ => 0)))
    have h3 := cap3Filter_count j (scoredOf db uid qEmb dist fts rank iid ts te topk)
      (fun _ => 0)
    rw [itemCountS] at h3
    omega
  · rw [heq, List.length_map, List.length_take]
    exact min_le_left _ _

/-- C4 witness: on the four-chunk store of one item with no matching signals
and an item filter, the retrieval returns at most `8` entries and at most 3
per item. -/
theorem C4_diversity_cap_witness :
    (hybridRetrieve [rowA] 1 none (fun _ => 0) (fun _ => false) (fun _ => 0)
      (some 7) none none 8).length ≤ 8 ∧
    (hybridRetrieve [rowA] 1 none (fun _ => 0) (fun _ => false) (fun _ => 0)
      (some 7) none none 8).countP (fun e => e.itemId == 7) ≤ 3 := by
  have h := C4_diversity_cap [rowA] 1 none (fun _ => 0) (fun _ => false) (fun _ => 0)
    (some 7) none none 8 (by decide)
  exact ⟨h.2.2, h.2.1 7⟩

theorem filterMap_of_pointwise {α β γ : Type} (F : β → Option γ) (h : α → β)
    (G : α → γ) :
    ∀ l : List α, (∀ p ∈ l, F (h p) = some (G p)) →
      (l.map h).filterMap F = l.map G := by
  intro l
  induction l with
  | nil => intro _; rfl
  | cons a t ih =>
    intro hpt
    rw [List.map_cons, List.filterMap_cons, hpt a (List.mem_cons_self a t),
      List.map_cons, ih (fun p hp => hpt p (List.mem_cons_of_mem a hp))]

theorem find?_row_self (rs : List ChunkRow) (hnd : (rs.map ChunkRow.chunkId).Nodup)
    (r : ChunkRow) (hr : r ∈ rs) :
    rs.find? (fun x => x.chunkId == r.chunkId) = some r := by
  induction rs with
  | nil => cases hr
  | cons a t ih =>
    rcases List.mem_cons.mp hr with rfl | hrt
    · simp [List.find?_cons]
    · have hne : (a.chunkId == r.chunkId) = false := by
        have h1 : a.chunkId ∉ t.map ChunkRow.chunkId := (List.nodup_cons.mp
          (by simpa using hnd)).1
        have h2 : r.chunkId ∈ t.map ChunkRow.chunkId :=
          List.mem_map_of_mem ChunkRow.chunkId hrt
        simp only [beq_eq_false_iff_ne, ne_eq]
        intro hcontra
        rw [hcontra] at h1
        exact h1 h2
      rw [List.find?_cons, hne]
      exact ih (List.Nodup.of_cons (by simpa using hnd)) hrt

theorem fusedScored_nil_left (kw : List (ChunkRow × ℚ)) (hnd : (candIds kw).Nodup) :
    fusedScored [] kw = kw.map (fun p =>
      (⟨(0.6 : ℚ) * signalVal [] (norm (List.map Prod.snd ([] : List (ChunkRow × ℚ))))
          p.1.chunkId +
        (0.4 : ℚ) * signalVal kw (norm (kw.map Prod.snd)) p.1.chunkId, p.1⟩ : Scored)) := by
  rw [fusedScored]
  have h0 : candIds ([] : List (ChunkRow × ℚ)) ++ candIds kw = candIds kw := rfl
  rw [h0, firstKeys_of_nodup _ hnd]
  apply filterMap_of_pointwise _ (fun p => p.1.chunkId) _ kw
  intro p hp
  have hfind : (([] ++ kw).map Prod.fst).find? (fun r => r.chunkId == p.1.chunkId) =
      some p.1 := by
    have hnd' : ((kw.map Prod.fst).map ChunkRow.chunkId).Nodup := by
      rw [List.map_map]
      exact hnd
    have : ([] ++ kw : List (ChunkRow × ℚ)) = kw := rfl
    rw [this]
    exact find?_row_self (kw.map Prod.fst) hnd' p.1 (List.mem_map_of_mem Prod.fst hp)
  rw [hfind]
  rfl

theorem zip_self_map_one (fb : List ChunkRow) :
    fb.zip (fb.map (fun _ => (1 : ℚ))) = fb.map (fun r => (r, (1 : ℚ))) := by
  induction fb with
  | nil => rfl
  | cons a t ih => rw [List.map_cons, List.zip_cons_cons, ih, List.map_cons]

theorem map_fst_pair_zero (fb : List ChunkRow) :
    (fb.map (fun r => (r, (0 : ℚ)))).map Prod.fst = fb := by
  induction fb with
  | nil => rfl
  | cons a t ih => rw [List.map_cons, List.map_cons, ih]

theorem signalVal_fallback_one (fb : List ChunkRow) (r : ChunkRow) (hr : r ∈ fb) :
    signalVal (fb.map (fun r => (r, (0 : ℚ))))
      (norm ((fb.map (fun r => (r, (0 : ℚ)))).map Prod.snd)) r.chunkId = 1 := by
  have hsnd : (fb.map (fun r => (r, (0 : ℚ)))).map Prod.snd =
      fb.map (fun _ => (0 : ℚ)) := by
    rw [List.map_map]
    rfl
  have hfst : (fb.map (fun r => (r, (0 : ℚ)))).map Prod.fst = fb :=
    map_fst_pair_zero fb
  rw [signalVal, hsnd, norm_map_const_zero, hfst, zip_self_map_one]
  apply maxMatch_exists_one
  · intro p hp
    obtain ⟨a, _, hap⟩ := List.mem_map.mp hp
    rw [← hap]
  · exact ⟨(r, 1), List.mem_map_of_mem _ hr, rfl⟩

theorem fusedScored_fallback (fb : List ChunkRow)
    (hnd : (fb.map ChunkRow.chunkId).Nodup) :
    fusedScored [] (fb.map (fun r => (r, (0 : ℚ)))) =
      fb.map (fun r => (⟨(0.4 : ℚ), r⟩ : Scored)) := by
  have hnd' : (candIds (fb.map (fun r => (r, (0 : ℚ))))).Nodup := by
    rw [candIds, List.map_map]
    exact hnd
  rw [fusedScored_nil_left _ hnd', List.map_map]
  apply List.map_congr_left
  intro r hr
  have hsv := signalVal_fallback_one fb r hr
  show (⟨(0.6 : ℚ) * signalVal [] (norm (List.map Prod.snd ([] : List (ChunkRow × ℚ))))
      r.chunkId +
    (0.4 : ℚ) * signalVal (fb.map (fun r => (r, (0 : ℚ))))
      (norm ((fb.map (fun r => (r, (0 : ℚ)))).map Prod.snd)) r.chunkId, r⟩ : Scored) =
    ⟨(0.4 : ℚ), r⟩
  have hz : signalVal ([] : List (ChunkRow × ℚ))
      (norm (List.map Prod.snd ([] : List (ChunkRow × ℚ)))) r.chunkId = 0 := rfl
  rw [hsv, hz]
  congr 1
  norm_num

theorem cap3Filter_same_item (i : Nat) :
    ∀ (l : List Scored) (cnt : Nat → Nat) (c : Nat), (∀ s ∈ l, s.row.itemId = i) →
      cnt i = c → cap3Filter l cnt = l.take (3 - c) := by
  intro l
  induction l with
  | nil => intro cnt c _ _; simp [cap3Filter]
  | cons s rest ih =>
    intro cnt c hall hc
    have hi : s.row.itemId = i := hall s (List.mem_cons_self _ _)
    have hbump : bump cnt s.row.itemId i = c + 1 := by
      rw [bump_eval, if_pos hi.symm, hc]
    have htail : ∀ q ∈ rest, q.row.itemId = i :=
      fun q hq => hall q (List.mem_cons_of_mem s hq)
    by_cases h3 : cnt s.row.itemId + 1 > 3
    · rw [cap3Filter, if_pos h3, ih _ (c + 1) htail hbump]
      have hcge : 3 ≤ c := by
        rw [hi, hc] at h3
        omega
      have h0 : 3 - (c + 1) = 0 := by omega
      have h0' : 3 - c = 0 := by omega
      rw [h0, h0']
      simp
    · rw [cap3Filter, if_neg h3, ih _ (c + 1) htail hbump]
      have hclt : c < 3 := by
        rw [hi, hc] at h3
        omega
      have hsucc : 3 - c = (3 - (c + 1)) + 1 := by omega
      rw [hsucc, List.take_succ_cons]

theorem fallbackCands_eq (db : List ChunkRow) (uid i k : Nat) :
    fallbackCands db uid i k =
      ((fallbackSorted db uid i).take k).map (fun r => (r, (0 : ℚ))) := rfl

theorem mem_fallbackSorted_take (db : List ChunkRow) (uid i k : Nat) (r : ChunkRow)
    (hr : r ∈ (fallbackSorted db uid i).take k) : r ∈ db ∧ r.itemId = i := by
  have h1 : r ∈ sortAscBy (fun r => r.chunkIndex)
      (db.filter (fun r => r.userId == uid && r.itemId == i)) :=
    List.mem_of_mem_take hr
  have h2 : r ∈ db.filter (fun r => r.userId == uid && r.itemId == i) :=
    ((sortAscBy_perm (fun r => r.chunkIndex) _).mem_iff).mp h1
  have h3 := List.mem_filter.mp h2
  refine ⟨h3.1, ?_⟩
  have := h3.2
  simp at this
  exact this.2

theorem fallbackSorted_take_nodup (db : List ChunkRow) (uid i k : Nat)
    (hnd : (db.map ChunkRow.chunkId).Nodup) :
    (((fallbackSorted db uid i).take k).map ChunkRow.chunkId).Nodup := by
  have h1 : List.Sublist (db.filter (fun r => r.userId == uid && r.itemId == i)) db :=
    List.filter_sublist db
  have h2 : List.Sublist
      ((db.filter (fun r => r.userId == uid && r.itemId == i)).map ChunkRow.chunkId)
      (db.map ChunkRow.chunkId) := List.Sublist.map _ h1
  have hfil := List.Nodup.sublist h2 hnd
  have hperm : ((fallbackSorted db uid i).map ChunkRow.chunkId).Perm
      ((db.filter (fun r => r.userId == uid && r.itemId == i)).map ChunkRow.chunkId) :=
    List.Perm.map _ (sortAscBy_perm _ _)
  have hsort := (List.Perm.nodup_iff hperm).mpr hfil
  have h3 : List.Sublist (((fallbackSorted db uid i).take k).map ChunkRow.chunkId)
      ((fallbackSorted db uid i).map ChunkRow.chunkId) :=
    List.Sublist.map _ (List.take_sublist k _)
  exact List.Nodup.sublist h3 hsort

theorem fallback_evidence_eq (db : List ChunkRow) (uid i : Nat)
    (qEmb : Option (List ℚ)) (dist : List ℚ → ℚ) (fts : ChunkRow → Bool)
    (rank : ChunkRow → ℚ) (ts te : Option ℚ) (topk : Nat)
    (hnd : (db.map ChunkRow.chunkId).Nodup) (htop : 0 < topk)
    (hv : vecCands db uid qEmb dist (some i) ts te (topk * 4) = [])
    (hk : kwCands db uid fts rank (some i) ts te (topk * 4) = []) :
    hybridRetrieve db uid qEmb dist fts rank (some i) ts te topk =
      ((fallbackSorted db uid i).take (min 3 topk)).map (fun r => evOf r (0.4 : ℚ)) ∧
    ∀ e ∈ hybridRetrieve db uid qEmb dist fts rank (some i) ts te topk,
      e.score = (0.4 : ℚ) := by
  have hnd_fb := fallbackSorted_take_nodup db uid i (topk * 4) hnd
  have hkwF : kwOrFallback db uid fts rank (some i) ts te (topk * 4)
      (vecCands db uid qEmb dist (some i) ts te (topk * 4)) =
      fallbackCands db uid i (topk * 4) := by
    rw [kwOrFallback, hv, hk]
    simp
  have hscored : scoredOf db uid qEmb dist fts rank (some i) ts te topk =
      ((fallbackSorted db uid i).take (topk * 4)).map
        (fun r => (⟨(0.4 : ℚ), r⟩ : Scored)) := by
    rw [scoredOf, hkwF, hv, fallbackCands_eq, fusedScored_fallback _ hnd_fb]
    apply sortDescBy_const_key Scored.score (0.4 : ℚ)
    intro x hx
    obtain ⟨r, _, hrx⟩ := List.mem_map.mp hx
    rw [← hrx]
  have hsame : ∀ s ∈ ((fallbackSorted db uid i).take (topk * 4)).map
      (fun r => (⟨(0.4 : ℚ), r⟩ : Scored)), s.row.itemId = i := by
    intro s hs
    obtain ⟨r, hr, hrs⟩ := List.mem_map.mp hs
    rw [← hrs]
    exact (mem_fallbackSorted_take db uid i (topk * 4) r hr).2
  have hcap : cap3Filter
      (((fallbackSorted db uid i).take (topk * 4)).map
        (fun r => (⟨(0.4 : ℚ), r⟩ : Scored))) (fun _ => 0) =
      (((fallbackSorted db uid i).take (topk * 4)).map
        (fun r => (⟨(0.4 : ℚ), r⟩ : Scored))).take 3 := by
    rw [cap3Filter_same_item i _ _ 0 hsame rfl]
  have hmain : hybridRetrieve db uid qEmb dist fts rank (some i) ts te topk =
      ((fallbackSorted db uid i).take (min 3 topk)).map (fun r => evOf r (0.4 : ℚ)) := by
    rw [hybridRetrieve, walkAux_eq_cap3 topk _ _ [] (by simpa using htop), hscored, hcap]
    simp only [List.nil_append, List.length_nil, Nat.sub_zero]
    rw [List.take_take, ← List.map_take, List.take_take]
    have hmin : min (min topk 3) (topk * 4) = min 3 topk := by
      have h1 : min topk 3 ≤ topk * 4 := by
        have := min_le_left topk 3
        omega
      rw [min_eq_left h1, min_comm]
    rw [hmin, List.map_map]
    rfl
  refine ⟨hmain, ?_⟩
  intro e he
  rw [hmain] at he
  obtain ⟨r, _, hre⟩ := List.mem_map.mp he
  rw [← hre]
  rfl

/-- C2 counterexample: a store with four chunks of item 7 for user 1 where
both signals produce no candidate and an item filter is supplied.
`hybrid_retrieve` returns only the first 3 chunks (diversity cap) and every
returned score is `0.4`, not `0` as the claim states. -/
theorem C2_fallback_counterexample :
    vecCands db4 1 none dist0 (some 7) none none 32 = [] ∧
    kwCands db4 1 fts0 rank0 (some 7) none none 32 = [] ∧
    (hybridRetrieve db4 1 none dist0 fts0 rank0 (some 7) none none 8).map
      (fun e => (e.chunkId, e.score)) =
      [(0, (0.4 : ℚ)), (1, (0.4 : ℚ)), (2, (0.4 : ℚ))] ∧
    db4.length = 4 ∧ ((0.4 : ℚ) = 0 → False) := by
  have h := (fallback_evidence_eq db4 1 7 none dist0 fts0 rank0 none none 8
    (by decide) (by decide) rfl rfl).1
  refine ⟨rfl, rfl, ?_, rfl, by norm_num⟩
  rw [h]
  rfl

/-- C2 amended: when both candidate sets are empty and an item filter was
supplied, `hybrid_retrieve` returns the item's chunks in ascending
`chunk_index` order, truncated by the diversity cap and `top_k` to the first
`min 3 top_k` of them, and every returned entry has fused score exactly `0.4`
(the rank column of the fallback rows is the constant `0.0`, which min-max
normalization maps to `1.0`, so the score is `0.6 * 0 + 0.4 * 1`), not `0`. -/
theorem C2_fallback_behavior (db : List ChunkRow) (uid i : Nat)
    (qEmb : Option (List ℚ)) (dist : List ℚ → ℚ) (fts : ChunkRow → Bool)
    (rank : ChunkRow → ℚ) (ts te : Option ℚ) (topk : Nat)
    (hnd : (db.map ChunkRow.chunkId).Nodup) (htop : 0 < topk)
    (hv : vecCands db uid qEmb dist (some i) ts te (topk * 4) = [])
    (hk : kwCands db uid fts rank (some i) ts te (topk * 4) = []) :
    hybridRetrieve db uid qEmb dist fts rank (some i) ts te topk =
      ((fallbackSorted db uid i).take (min 3 topk)).map (fun r => evOf r (0.4 : ℚ)) ∧
    ∀ e ∈ hybridRetrieve db uid qEmb dist fts rank (some i) ts te topk,
      e.score = (0.4 : ℚ) :=
  fallback_evidence_eq db uid i qEmb dist fts rank ts te topk hnd htop hv hk

/-- C2 amended-claim witness: on the concrete four-chunk store the amended
description matches the computed evidence. -/
theorem C2_fallback_behavior_witness :
    hybridRetrieve db4 1 none dist0 fts0 rank0 (some 7) none none 8 =
      ((fallbackSorted db4 1 7).take (min 3 8)).map (fun r => evOf r (0.4 : ℚ)) ∧
    ∀ e ∈ hybridRetrieve db4 1 none dist0 fts0 rank0 (some 7) none none 8,
      e.score = (0.4 : ℚ) :=
  C2_fallback_behavior db4 1 7 none dist0 fts0 rank0 none none 8
    (by decide) (by decide) rfl (by decide)

theorem mem_vecCands (db : List ChunkRow) (uid : Nat) (qEmb : Option (List ℚ))
    (dist : List ℚ → ℚ) (iid : Option Nat) (ts te : Option ℚ) (k : Nat)
    (p : ChunkRow × ℚ) (hp : p ∈ vecCands db uid qEmb dist iid ts te k) :
    p.1 ∈ db ∧ p.1.embedding.isSome = true := by
  cases qEmb with
  | none => cases hp
  | some e =>
    rw [vecCands] at hp
    obtain ⟨r', hr', hrp⟩ := List.mem_map.mp hp
    have h1 : r' ∈ sortAscBy (fun r : ChunkRow => dist (r.embedding.getD []))
        (db.filter (fun r =>
          r.userId == uid && r.embedding.isSome && itemOk iid r && timeOk ts te r)) :=
      List.mem_of_mem_take hr'
    have h2 := ((sortAscBy_perm (fun r : ChunkRow => dist (r.embedding.getD [])) _).mem_iff).mp h1
    have h3 := List.mem_filter.mp h2
    have hpred := h3.2
    simp only [Bool.and_eq_true] at hpred
    rw [← hrp]
    exact ⟨h3.1, hpred.1.1.2⟩

theorem chunkId_inj_db (db : List ChunkRow) (hnd : (db.map ChunkRow.chunkId).Nodup)
    (a b : ChunkRow) (ha : a ∈ db) (hb : b ∈ db) (h : a.chunkId = b.chunkId) :
    a = b :=
  List.inj_on_of_nodup_map hnd ha hb h

theorem mem_walkAux (topk : Nat) :
    ∀ (l : List Scored) (cnt : Nat → Nat) (ev : List Evidence) (e : Evidence),
      e ∈ walkAux topk l cnt ev → e ∈ ev ∨ ∃ s ∈ l, e = mkEv s := by
  intro l
  induction l with
  | nil => intro cnt ev e he; exact Or.inl he
  | cons s rest ih =>
    intro cnt ev e he
    rw [walkAux] at he
    by_cases h1 : cnt s.row.itemId + 1 > 3
    · rw [if_pos h1] at he
      rcases ih _ _ _ he with hev | ⟨q, hq, hqe⟩
      · exact Or.inl hev
      · exact Or.inr ⟨q, List.mem_cons_of_mem s hq, hqe⟩
    · rw [if_neg h1] at he
      by_cases h2 : topk ≤ (ev ++ [mkEv s]).length
      · rw [if_pos h2] at he
        rcases List.mem_append.mp he with hev | hone
        · exact Or.inl hev
        · exact Or.inr ⟨s, List.mem_cons_self s rest, List.mem_singleton.mp hone⟩
      · rw [if_neg h2] at he
        rcases ih _ _ _ he with hev | ⟨q, hq, hqe⟩
        · rcases List.mem_append.mp hev with hev' | hone
          · exact Or.inl hev'
          · exact Or.inr ⟨s, List.mem_cons_self s rest, List.mem_singleton.mp hone⟩
        · exact Or.inr ⟨q, List.mem_cons_of_mem s hq, hqe⟩

theorem mem_insertRows (rows : List ChunkRow) :
    ∀ (db : List ChunkRow) (q : ChunkRow), q ∈ insertRows db rows →
      q ∈ db ∨ q ∈ rows := by
  induction rows with
  | nil => intro db q hq; exact Or.inl hq
  | cons s t ih =>
    intro db q hq
    rcases ih _ _ hq with hq' | hqt
    · rw [insertChunkRow] at hq'
      split at hq'
      · exact Or.inl hq'
      · rcases List.mem_append.mp hq' with hdb | hone
        · exact Or.inl hdb
        · refine Or.inr ?_
          rw [List.mem_singleton.mp hone]
          exact List.mem_cons_self s t
    · exact Or.inr (List.mem_cons_of_mem s hqt)

/-- C9: only rows with a non-null stored embedding can be vector candidates
(the query filters `embedding IS NOT NULL`); hence a stored chunk with a null
embedding is never a vector candidate, its semantic signal is exactly `0`, any
evidence entry for it scores `0.4 * lexical` and its id comes from the keyword
(or fallback) candidate set; and every row written by
`_insert_chunks_no_embed` — the writer used by the WEB, AUDIO, PDF and
MARKDOWN passes — has a null embedding. -/
theorem C9_null_embedding_semantic_zero (db : List ChunkRow) (uid : Nat)
    (qEmb : Option (List ℚ)) (dist : List ℚ → ℚ) (fts : ChunkRow → Bool)
    (rank : ChunkRow → ℚ) (iid : Option Nat) (ts te : Option ℚ) (topk : Nat)
    (hnd : (db.map ChunkRow.chunkId).Nodup) (r : ChunkRow) (hr : r ∈ db)
    (hnone : r.embedding = none) :
    (∀ p ∈ vecCands db uid qEmb dist iid ts te (topk * 4),
      p.1.embedding.isSome = true ∧ p.1.chunkId ≠ r.chunkId) ∧
    signalVal (vecCands db uid qEmb dist iid ts te (topk * 4))
      (norm ((vecCands db uid qEmb dist iid ts te (topk * 4)).map Prod.snd))
      r.chunkId = 0 ∧
    (∀ e ∈ hybridRetrieve db uid qEmb dist fts rank iid ts te topk,
      e.chunkId = r.chunkId →
        e.score = (0.4 : ℚ) * signalVal
          (kwOrFallback db uid fts rank iid ts te (topk * 4)
            (vecCands db uid qEmb dist iid ts te (topk * 4)))
          (norm ((kwOrFallback db uid fts rank iid ts te (topk * 4)
            (vecCands db uid qEmb dist iid ts te (topk * 4))).map Prod.snd))
          r.chunkId ∧
        r.chunkId ∈ candIds (kwOrFallback db uid fts rank iid ts te (topk * 4)
          (vecCands db uid qEmb dist iid ts te (topk * 4)))) ∧
    (∀ (hash : List Char → Nat) (supply : Nat → Nat) (now : ℚ)
        (db' : List ChunkRow) (uid' iid' : Nat) (item : ItemAttrs)
        (texts : List (List Char)) (pt ps pe : List Char) (cts cte : Option ℚ),
      ∀ q ∈ insertChunksNoEmbed hash supply now db' uid' iid' item texts pt ps pe cts cte,
        q ∈ db' ∨ q.embedding = none) := by
  have hvec : ∀ p ∈ vecCands db uid qEmb dist iid ts te (topk * 4),
      p.1.embedding.isSome = true ∧ p.1.chunkId ≠ r.chunkId := by
    intro p hp
    obtain ⟨hpdb, hpsome⟩ := mem_vecCands db uid qEmb dist iid ts te (topk * 4) p hp
    refine ⟨hpsome, ?_⟩
    intro hid
    have := chunkId_inj_db db hnd p.1 r hpdb hr hid
    rw [this, hnone] at hpsome
    cases hpsome
  have hsem : signalVal (vecCands db uid qEmb dist iid ts te (topk * 4))
      (norm ((vecCands db uid qEmb dist iid ts te (topk * 4)).map Prod.snd))
      r.chunkId = 0 := by
    rw [signalVal]
    apply maxMatch_nomatch
    intro q hq
    obtain ⟨a, b⟩ := q
    have ha : a ∈ (vecCands db uid qEmb dist iid ts te (topk * 4)).map Prod.fst :=
      (List.of_mem_zip hq).1
    obtain ⟨p, hp, hpa⟩ := List.mem_map.mp ha
    have := (hvec p hp).2
    rw [hpa] at this
    exact this
  refine ⟨hvec, hsem, ?_, ?_⟩
  · intro e he hid
    rcases mem_walkAux topk _ _ _ e he with hnil | ⟨s, hs, hse⟩
    · cases hnil
    · have hs' : s ∈ fusedScored (vecCands db uid qEmb dist iid ts te (topk * 4))
          (kwOrFallback db uid fts rank iid ts te (topk * 4)
            (vecCands db uid qEmb dist iid ts te (topk * 4))) :=
        ((sortDescBy_perm Scored.score _).mem_iff).mp hs
      obtain ⟨hmem, hscore⟩ := mem_fusedScored _ _ s hs'
      have heid : e.chunkId = s.row.chunkId := by rw [hse]; rfl
      have hsid : s.row.chunkId = r.chunkId := by rw [← heid, hid]
      have hescore : e.score = s.score := by rw [hse]; rfl
      have hnotv : s.row.chunkId ∉
          candIds (vecCands db uid qEmb dist iid ts te (topk * 4)) := by
        intro hcontra
        obtain ⟨p, hp, hpid⟩ := List.mem_map.mp hcontra
        exact (hvec p hp).2 (by rw [hpid, hsid])
      have hkwmem : s.row.chunkId ∈
          candIds (kwOrFallback db uid fts rank iid ts te (topk * 4)
            (vecCands db uid qEmb dist iid ts te (topk * 4))) := by
        rcases List.mem_append.mp hmem with hv' | hk'
        · exact absurd hv' hnotv
        · exact hk'
      constructor
      · rw [hescore, hscore, hsid, hsem]
        ring
      · rw [← hsid]
        exact hkwmem
  · intro hash supply now db' uid' iid' item texts pt ps pe cts cte q hq
    rw [insertChunksNoEmbed] at hq
    by_cases htexts : texts.isEmpty
    · rw [if_pos htexts] at hq
      exact Or.inl hq
    · rw [if_neg htexts] at hq
      rcases mem_insertRows _ _ _ hq with hdb | hrow
      · exact Or.inl hdb
      · exact Or.inr
          (mem_noEmbedRows hash supply now uid' iid' item pt ps pe cts cte texts 0 q
            hrow).2.2.2

/-- C9 witness: on the concrete store whose chunks all have a null embedding,
the semantic signal of chunk 0 is exactly `0`. -/
theorem C9_null_embedding_semantic_zero_witness :
    signalVal (vecCands db4 1 none dist0 (some 7) none none (8 * 4))
      (norm ((vecCands db4 1 none dist0 (some 7) none none (8 * 4)).map Prod.snd))
      (cRow 0 0).chunkId = 0 :=
  (C9_null_embedding_semantic_zero db4 1 none dist0 fts0 rank0 (some 7) none none 8
    (by decide) (cRow 0 0) (by decide) rfl).2.1

theorem stripTail_append_singleton (u : List Char) (d : Char)
    (hd : d.isWhitespace = false) : stripTail (u ++ [d]) = u ++ [d] := by
  rw [stripTail, List.reverse_append]
  simp only [List.reverse_cons, List.reverse_nil, List.nil_append, List.singleton_append]
  rw [List.dropWhile_cons]
  simp only [hd, Bool.false_eq_true, if_false]
  rw [List.reverse_cons, List.reverse_reverse]

theorem pyStrip_sandwich (c d : Char) (l : List Char) (hc : c.isWhitespace = false)
    (hd : d.isWhitespace = false) : pyStrip (c :: (l ++ [d])) = c :: (l ++ [d]) := by
  rw [pyStrip, stripLead_cons_of _ _ hc]
  show stripTail ((c :: l) ++ [d]) = (c :: l) ++ [d]
  exact stripTail_append_singleton (c :: l) d hd

theorem hasDoubleNL_append_noNL (l1 : List Char) (h : '\n' ∉ l1) (l2 : List Char) :
    hasDoubleNL (l1 ++ l2) = hasDoubleNL l2 := by
  induction l1 with
  | nil => rfl
  | cons c t ih =>
    have hc : c ≠ '\n' := fun hcc => h (hcc ▸ List.mem_cons_self c t)
    have ht : '\n' ∉ t := fun htt => h (List.mem_cons_of_mem c htt)
    rw [List.cons_append]
    cases hX : t ++ l2 with
    | nil =>
      obtain ⟨ht0, hl0⟩ := List.append_eq_nil.mp hX
      subst hl0
      rfl
    | cons e Y =>
      rw [hasDoubleNL]
      have hce : (c == '\n') = false := by
        simp [hc]
      rw [hce]
      simp only [Bool.false_and, Bool.false_or]
      rw [← hX]
      exact ih ht

theorem c10text_shape :
    c10text = 'D' :: ((("escription: ".toList ++ c10desc) ++ '\n' :: "Tags".toList)
      ++ [':']) := by
  rw [c10text]
  have h1 : "Description: ".toList = 'D' :: "escription: ".toList := by decide
  have h2 : "Tags:".toList = "Tags".toList ++ [':'] := by decide
  rw [h1, h2]
  simp [List.append_assoc]

theorem c10text_pyStrip : pyStrip c10text = c10text := by
  rw [c10text_shape]
  exact pyStrip_sandwich 'D' ':' _ (by decide) (by decide)

theorem c10text_isEmpty : c10text.isEmpty = false := by
  rw [c10text_shape]
  rfl

theorem c10text_noDouble : hasDoubleNL c10text = false := by
  rw [c10text]
  rw [show "Description: ".toList ++ c10desc ++ '\n' :: "Tags:".toList =
    "Description: ".toList ++ (c10desc ++ '\n' :: "Tags:".toList) from rfl]
  rw [hasDoubleNL_append_noNL _ (by decide) _]
  rw [hasDoubleNL_append_noNL _ ?_ _]
  · decide
  · rw [c10desc]
    intro hmem
    have := (List.mem_replicate.mp hmem).2
    cases this

theorem c10text_len : 2000 < c10text.length := by
  rw [c10text]
  have h1 : ("Description: ".toList).length = 13 := by decide
  have h2 : ("Tags:".toList).length = 5 := by decide
  rw [List.length_append, List.length_append, List.length_cons, h1, h2]
  rw [c10desc, List.length_replicate]
  omega

theorem c10text_paras : parasOf c10text = [c10text] := by
  rw [parasOf, splitParas, splitParasAux_no_double _ [] c10text_noDouble]
  simp only [List.reverse_nil, List.nil_append, List.map_cons, List.map_nil,
    c10text_pyStrip]
  rw [List.filter]
  simp [c10text_isEmpty, List.filter]

theorem c10text_pack : packLoop 2000 [c10text] [] [] = [c10text] := by
  rw [packLoop]
  have hcond : ¬ (([] : List Char).length + c10text.length + 2 ≤ 2000) := by
    have := c10text_len
    simp only [List.length_nil]
    omega
  rw [if_neg hcond, packLoop]
  have hf1 : flushChunk ([] : List (List Char)) [] = [] := rfl
  rw [hf1, flushChunk, c10text_pyStrip]
  have hne : ¬ (c10text.isEmpty = true) := by
    rw [c10text_isEmpty]
    simp
  rw [if_neg hne]
  rfl

theorem c10_searchable : imageSearchable c10desc [] = c10text := by
  rw [imageSearchable]
  have htags : imageTags ([] : List Char) = [] := by decide
  rw [htags]
  simp only [List.isEmpty_nil, if_true]
  have hlineA : pyStrip ("Description: ".toList ++ c10desc) =
      "Description: ".toList ++ c10desc := by
    have hshape : "Description: ".toList ++ c10desc =
        'D' :: (("escription: ".toList ++ List.replicate 2000 'a') ++ ['a']) := by
      have h1 : "Description: ".toList = 'D' :: "escription: ".toList := by decide
      have h2 : c10desc = List.replicate 2000 'a' ++ ['a'] := by
        rw [c10desc, show (2001 : Nat) = 2000 + 1 from rfl]
        exact List.replicate_succ' 2000 'a'
      rw [h1, h2]
      rw [List.cons_append, List.append_assoc]
    rw [hshape]
    exact pyStrip_sandwich 'D' 'a' _ (by decide) (by decide)
  rw [hlineA]
  have hassoc : ("Description: ".toList ++ c10desc) ++ '\n' :: "Tags:".toList =
      c10text := by
    rw [c10text]
  rw [hassoc, c10text_pyStrip]

/-- C10: the claim says the IMAGE pass always inserts at least one chunk. On a
2001-character description with no tags, the synthesized searchable text is a
single 2020-character paragraph, `chunk_text`'s re-split loop never returns
(for any fuel), so `ingest_image_metadata` never reaches its insert and stores
nothing. -/
theorem C10_image_pass_diverges :
    ∀ (fuel : Nat) (hash : List Char → Nat) (supply : Nat → Nat) (now : ℚ)
      (hasKey : Bool) (outcome : EmbedOutcome) (timedOut : Bool)
      (db : List ChunkRow) (uid iid : Nat) (item : ItemAttrs) (rawKey : List Char),
      imageChunksOf fuel c10desc [] = none ∧
      ingestImagePass fuel hash supply now hasKey outcome timedOut db uid iid item
        rawKey c10desc [] = none := by
  intro fuel hash supply now hasKey outcome timedOut db uid iid item rawKey
  have hchunk : chunkText fuel (imageSearchable c10desc []) 2000 200 = none := by
    rw [c10_searchable, chunkText, c10text_pyStrip]
    have hne : ¬ (c10text.isEmpty = true) := by
      rw [c10text_isEmpty]
      simp
    rw [if_neg hne, c10text_paras, c10text_pack,
      enforce_eq_none 2000 200 fuel (by norm_num) _
        ⟨c10text, List.mem_singleton_self _, c10text_len⟩]
  have hic : imageChunksOf fuel c10desc [] = none := by
    rw [imageChunksOf, hchunk]
  exact ⟨hic, by rw [ingestImagePass, hic]⟩

end SecondBrain
